import Mathlib

/-!
Verification of the transit-graph core (graph construction, Dijkstra shortest
path, closeness centrality, Brandes-style betweenness centrality, and
route-delay aggregation) of the NJ-Transit delay analysis program.

The Rust source is shallowly embedded:
* `f32` delay weights are modelled as exact rationals (`ℚ`); the `f32` NaN
  special value has no counterpart in `ℚ`, so the `NotNan` wrapper's
  fail-fast panic path is dead in the model, and `is_finite` is always true.
* `String`-keyed `HashMap`s are modelled as association lists with pairwise
  distinct keys; `BinaryHeap<Reverse<(NotNan<f32>, String)>>` is modelled as a
  list popped at its lexicographically least element, which is exactly the
  element `BinaryHeap::pop` removes.
* The `while` loops of `shortest_path` and of the betweenness BFS are modelled
  with explicit fuel; the fuel chosen for `shortest_path` is proved sufficient
  for graphs with non-negative weights, where the Rust loop terminates.
-/

set_option maxHeartbeats 1000000

/-- Station identifier (src/graph.rs: `pub type Station = String`). -/
abbrev Station := String

/-- One CSV row (src/load.rs `TrainRecord`).  Field `from` of the source is a
Lean keyword, hence the guillemets.  `delay_minutes : Option f32` is modelled
with `Option ℚ`. -/
structure TrainRecord where
  date : String
  train_id : String
  stop_sequence : String
  «from» : String
  from_id : String
  «to» : String
  to_id : String
  scheduled_time : String
  actual_time : String
  delay_minutes : Option ℚ
  status : String
  line : String
  «type» : String
  month : String
  year : String

/-- Association-list lookup, modelling `HashMap::get`. -/
def lookupA {κ α : Type} [DecidableEq κ] : List (κ × α) → κ → Option α
  | [], _ => none
  | (k', v) :: t, k => if k' = k then some v else lookupA t k

/-- Association-list insert-or-overwrite, modelling `HashMap::insert`. -/
def upsertA {κ α : Type} [DecidableEq κ] : List (κ × α) → κ → α → List (κ × α)
  | [], k, v => [(k, v)]
  | (k', v') :: t, k, v => if k' = k then (k, v) :: t else (k', v') :: upsertA t k v

/-- Association-list in-place value update, modelling `Entry::and_modify`:
a no-op when the key is absent. -/
def modifyA {κ α : Type} [DecidableEq κ] : List (κ × α) → κ → (α → α) → List (κ × α)
  | [], _, _ => []
  | (k', v') :: t, k, f => if k' = k then (k, f v') :: t else (k', v') :: modifyA t k f

/-- Appending an edge to the adjacency list of `f`, creating the entry when
absent: `nodes.entry(from).or_default().push((to, delay))` in
`TransitGraph::from_records` (src/graph.rs). -/
def insertEdge : List (Station × List (Station × ℚ)) → Station → Station × ℚ →
    List (Station × List (Station × ℚ))
  | [], f, e => [(f, [e])]
  | (k, es) :: t, f, e =>
    if k = f then (k, es ++ [e]) :: t else (k, es) :: insertEdge t f e

/-- Raw adjacency structure accumulated by `from_records`. -/
def buildNodes (records : List TrainRecord) : List (Station × List (Station × ℚ)) :=
  records.foldl
    (fun nodes r =>
      match r.delay_minutes with
      | none => nodes
      | some delay => insertEdge nodes r.«from» (r.«to», delay))
    []

theorem keys_insertEdge (m : List (Station × List (Station × ℚ))) (f : Station)
    (e : Station × ℚ) :
    (insertEdge m f e).map Prod.fst =
      if f ∈ m.map Prod.fst then m.map Prod.fst else m.map Prod.fst ++ [f] := by
  induction m with
  | nil => simp [insertEdge]
  | cons hd tl ih =>
    obtain ⟨k, es⟩ := hd
    by_cases hk : k = f
    · subst hk
      simp [insertEdge]
    · simp only [insertEdge, if_neg hk, List.map_cons, List.mem_cons, ih]
      have : ¬ f = k := fun h => hk h.symm
      by_cases hf : f ∈ tl.map Prod.fst <;> simp [hf, this]

theorem nodup_keys_insertEdge {m : List (Station × List (Station × ℚ))}
    (h : (m.map Prod.fst).Nodup) (f : Station) (e : Station × ℚ) :
    ((insertEdge m f e).map Prod.fst).Nodup := by
  rw [keys_insertEdge]
  by_cases hf : f ∈ m.map Prod.fst
  · simpa [hf]
  · simp only [hf, if_false]
    refine List.Nodup.append h (List.nodup_singleton f) ?_
    intro x hx hx'
    simp only [List.mem_singleton] at hx'
    exact hf (hx' ▸ hx)

theorem nodup_keys_buildNodes (records : List TrainRecord) :
    ((buildNodes records).map Prod.fst).Nodup := by
  suffices h : ∀ acc : List (Station × List (Station × ℚ)), (acc.map Prod.fst).Nodup →
      ((records.foldl
        (fun nodes r =>
          match r.delay_minutes with
          | none => nodes
          | some delay => insertEdge nodes r.«from» (r.«to», delay)) acc).map Prod.fst).Nodup by
    exact h [] (by simp)
  induction records with
  | nil => intro acc hacc; simpa using hacc
  | cons r rs ih =>
    intro acc hacc
    simp only [List.foldl_cons]
    cases hr : r.delay_minutes with
    | none => exact ih acc (by simpa using hacc)
    | some d => exact ih _ (nodup_keys_insertEdge hacc _ _)

/-- The transit network (src/graph.rs `TransitGraph`): a map from each origin
station to its ordered list of `(destination, delay)` edges.  The `HashMap`
key-uniqueness invariant is carried explicitly. -/
structure TransitGraph where
  nodes : List (Station × List (Station × ℚ))
  nodup_keys : (nodes.map Prod.fst).Nodup

/-- `TransitGraph::from_records` (src/graph.rs): one edge per record whose
`delay_minutes` is present; delay-less records are skipped. -/
def TransitGraph.from_records (records : List TrainRecord) : TransitGraph :=
  ⟨buildNodes records, nodup_keys_buildNodes records⟩

/-- `self.nodes.get(&station)` on the adjacency map. -/
def TransitGraph.get (g : TransitGraph) (s : Station) : Option (List (Station × ℚ)) :=
  lookupA g.nodes s

/-- The adjacency list of `s`, empty when `s` is not a key. -/
def nbrs (g : TransitGraph) (s : Station) : List (Station × ℚ) :=
  (g.get s).getD []

/-- Insertion preserving first occurrence, modelling `HashSet::insert`. -/
def insertNew (l : List Station) (s : Station) : List Station :=
  if s ∈ l then l else l ++ [s]

/-- `TransitGraph::all_stations` (src/metrics.rs): every station occurring as
an origin or as a destination, without duplicates. -/
def TransitGraph.all_stations (g : TransitGraph) : List Station :=
  g.nodes.foldl
    (fun acc p => p.2.foldl (fun a td => insertNew a td.1) (insertNew acc p.1)) []

/-- The total order on heap entries realised by
`BinaryHeap<Reverse<(NotNan<f32>, String)>>`: `pop` removes the entry that is
least in the lexicographic `(weight, station)` order. -/
def entryLe (a b : ℚ × Station) : Prop :=
  a.1 < b.1 ∨ (a.1 = b.1 ∧ ¬ b.2 < a.2)

instance : DecidableRel entryLe := fun a b =>
  inferInstanceAs (Decidable (a.1 < b.1 ∨ (a.1 = b.1 ∧ ¬ b.2 < a.2)))

/-- Remove the least entry of the heap (`BinaryHeap::pop` through `Reverse`). -/
def popMin : List (ℚ × Station) → Option ((ℚ × Station) × List (ℚ × Station))
  | [] => none
  | x :: xs =>
    match popMin xs with
    | none => some (x, [])
    | some (m, rest) => if entryLe x m then some (x, xs) else some (m, x :: rest)

/-- One relaxation pass over the adjacency list of the popped station, with
popped cumulative delay `d`: the body of the `for (neighbor, weight)` loop of
`TransitGraph::shortest_path` (src/metrics.rs).  Improvements overwrite the
distance and predecessor and push a fresh heap entry. -/
def relaxStep (station : Station) (d : ℚ)
    (acc : List (Station × ℚ) × List (Station × Station) × List (ℚ × Station))
    (nw : Station × ℚ) :
    List (Station × ℚ) × List (Station × Station) × List (ℚ × Station) :=
  let new_dist := d + nw.2
  let is_better :=
    match lookupA acc.1 nw.1 with
    | none => true
    | some current_dist => decide (new_dist < current_dist)
  if is_better then
    (upsertA acc.1 nw.1 new_dist, upsertA acc.2.1 nw.1 station,
      (new_dist, nw.1) :: acc.2.2)
  else acc

def relax (station : Station) (d : ℚ)
    (st : List (Station × ℚ) × List (Station × Station) × List (ℚ × Station))
    (neighbors : List (Station × ℚ)) :
    List (Station × ℚ) × List (Station × Station) × List (ℚ × Station) :=
  neighbors.foldl (relaxStep station d) st

/-- Walking `previous` links backward from `current`, accumulating stations so
that the final list is already in forward order (the source builds the reversed
list and then reverses it).  The fuel bounds the walk; it is sufficient for
every predecessor map arising in the algorithm. -/
def reconstructPath (previous : List (Station × Station)) :
    Nat → Station → List Station → List Station
  | 0, current, acc => current :: acc
  | fuel + 1, current, acc =>
    match lookupA previous current with
    | none => current :: acc
    | some prevstation => reconstructPath previous fuel prevstation (current :: acc)

/-- The `while let Some(Reverse((wrapped_dist, station))) = heap.pop()` loop of
`TransitGraph::shortest_path`, with explicit fuel. -/
def dijkstraLoop (g : TransitGraph) (endS : Station) :
    Nat → List (Station × ℚ) → List (Station × Station) → List (ℚ × Station) →
    Option (ℚ × List Station)
  | 0, _, _, _ => none
  | fuel + 1, distances, previous, heap =>
    match popMin heap with
    | none => none
    | some ((dist, station), heap') =>
      if station = endS then
        some (dist, reconstructPath previous previous.length endS [])
      else
        match g.get station with
        | none => dijkstraLoop g endS fuel distances previous heap'
        | some neighbors =>
          let st := relax station dist (distances, previous, heap') neighbors
          dijkstraLoop g endS fuel st.1 st.2.1 st.2.2

/-- The station universe touched by a `shortest_path` run from `start`. -/
def stationUniverse (g : TransitGraph) (start : Station) : List Station :=
  insertNew g.all_stations start

/-- Fuel sufficient for the Dijkstra loop on non-negative weights: one pop per
initial heap entry plus, for every station, one stale pop of each entry it can
push, as established by `dijkstraLoop_sound`. -/
def dijkstraFuel (g : TransitGraph) (start : Station) : Nat :=
  2 + ((stationUniverse g start).map (fun v => 1 + (nbrs g v).length)).sum

/-- `TransitGraph::shortest_path` (src/metrics.rs): Dijkstra from `start`,
stopping as soon as `endS` is popped. -/
def TransitGraph.shortest_path (g : TransitGraph) (start endS : Station) :
    Option (ℚ × List Station) :=
  dijkstraLoop g endS (dijkstraFuel g start) [(start, 0)] [] [(0, start)]

/-- `TransitGraph::closeness_centrality` (src/metrics.rs): fold over the keys
of `nodes`, accumulating the total shortest-path delay to and the count of the
reachable key stations; the source's nested `if` returns `None` exactly when
`total_delay == 0.0 || reachable == 0`. -/
def TransitGraph.closeness_centrality (g : TransitGraph) (station : Station) :
    Option ℚ :=
  let res :=
    g.nodes.foldl
      (fun (acc : ℚ × Nat) p =>
        if p.1 = station then acc
        else
          match g.shortest_path station p.1 with
          | some dp => (acc.1 + dp.1, acc.2 + 1)
          | none => acc)
      (0, 0)
  if res.1 = 0 ∨ res.2 = 0 then none else some ((res.2 : ℚ) / res.1)

/-- One BFS step body state: `(queue, preds, sigma, dist)`. -/
abbrev BfsState :=
  List Station × List (Station × List Station) × List (Station × ℚ) ×
    List (Station × ℤ)

/-- The `for (w, _) in self.nodes.get(&v)` body of the betweenness BFS
(src/metrics.rs): first-visit discovery, then shortest-path counting. -/
def bfsVisit (v : Station) (d_v : ℤ) (st : BfsState) (wp : Station × ℚ) : BfsState :=
  let w := wp.1
  let st1 :=
    if (lookupA st.2.2.2 w).getD (-1) < 0 then
      (st.1 ++ [w], st.2.1, st.2.2.1, upsertA st.2.2.2 w (d_v + 1))
    else st
  if (lookupA st1.2.2.2 w).getD (-1) = d_v + 1 then
    let sv := (lookupA st1.2.2.1 v).getD 0
    (st1.1,
      upsertA st1.2.1 w ((lookupA st1.2.1 w).getD [] ++ [v]),
      upsertA st1.2.2.1 w ((lookupA st1.2.2.1 w).getD 0 + sv),
      st1.2.2.2)
  else st1

/-- The `while let Some(v) = queue.pop_front()` BFS loop of
`betweenness_centrality`, with explicit fuel; returns
`(stack, preds, sigma, dist)`. -/
def bfsLoop (g : TransitGraph) :
    Nat → BfsState → List Station →
    List Station × List (Station × List Station) × List (Station × ℚ) ×
      List (Station × ℤ)
  | 0, st, stack => (stack, st.2.1, st.2.2.1, st.2.2.2)
  | fuel + 1, st, stack =>
    match st.1 with
    | [] => (stack, st.2.1, st.2.2.1, st.2.2.2)
    | v :: queue' =>
      let d_v := (lookupA st.2.2.2 v).getD (-1)
      let st' := (nbrs g v).foldl (bfsVisit v d_v) (queue', st.2.1, st.2.2.1, st.2.2.2)
      bfsLoop g fuel st' (stack ++ [v])

/-- The per-predecessor dependency distribution for the popped stack element
`w`: `delta[v] += (sigma[v] / sigma[w]) * (1 + delta[w])` for each recorded
predecessor `v`, guarded by `sigma[w] > 0`. -/
def accumDelta (preds : List (Station × List Station))
    (sigma : List (Station × ℚ)) (w : Station)
    (delta : List (Station × ℚ)) : List (Station × ℚ) :=
  ((lookupA preds w).getD []).foldl
    (fun dacc v =>
      let sig_w := (lookupA sigma w).getD 0
      if 0 < sig_w then
        let c := (lookupA sigma v).getD 0 / sig_w * (1 + (lookupA dacc w).getD 0)
        modifyA dacc v (fun x => x + c)
      else dacc)
    delta

/-- The centrality accumulation for the popped stack element `w`: only a
finite, non-negative `delta[w]` is added (`contrib.is_finite()` is identically
true in the exact-rational model). -/
def centralityUpdate (s w : Station) (delta' : List (Station × ℚ))
    (centrality : List (Station × ℚ)) : List (Station × ℚ) :=
  if w ≠ s then
    let contrib := (lookupA delta' w).getD 0
    if 0 ≤ contrib then modifyA centrality w (fun x => x + contrib)
    else centrality
  else centrality

/-- The `while let Some(w) = stack.pop()` dependency-accumulation loop of
`betweenness_centrality` (src/metrics.rs); the input list is the stack read
from its top. -/
def accumLoop (s : Station) :
    List Station → List (Station × List Station) → List (Station × ℚ) →
    List (Station × ℚ) → List (Station × ℚ) → List (Station × ℚ)
  | [], _, _, _, centrality => centrality
  | w :: rest, preds, sigma, delta, centrality =>
    let delta' := accumDelta preds sigma w delta
    accumLoop s rest preds sigma delta' (centralityUpdate s w delta' centrality)

/-- One source iteration of Brandes' algorithm: BFS from `s`, then dependency
accumulation into the running centrality map. -/
def betweennessSource (g : TransitGraph) (all : List Station)
    (centrality : List (Station × ℚ)) (s : Station) : List (Station × ℚ) :=
  let sigma0 := upsertA (all.map (fun v => (v, (0 : ℚ)))) s 1
  let dist0 := upsertA (all.map (fun v => (v, (-1 : ℤ)))) s 0
  let bfs := bfsLoop g (all.length + 1) ([s], [], sigma0, dist0) []
  let delta0 := all.map (fun v => (v, (0 : ℚ)))
  accumLoop s bfs.1.reverse bfs.2.1 bfs.2.2.1 delta0 centrality

/-- `TransitGraph::betweenness_centrality` (src/metrics.rs): Brandes'
algorithm over unweighted hop counts: per-source BFS computing `sigma` and
predecessor lists, then reverse-stack dependency accumulation guarded to
finite, non-negative contributions. -/
def TransitGraph.betweenness_centrality (g : TransitGraph) : List (Station × ℚ) :=
  let all := g.all_stations
  all.foldl (betweennessSource g all) (all.map (fun v => (v, (0 : ℚ))))

/-- The accumulation body of `get_route_average_delays`:
`totalroutes.entry((from, to)).or_insert((0.0, 0))`, then add the delay and
increment the trip count. -/
def routeStep (acc : List ((Station × Station) × (ℚ × Nat)))
    (key : Station × Station) (d : ℚ) : List ((Station × Station) × (ℚ × Nat)) :=
  match lookupA acc key with
  | some tc => upsertA acc key (tc.1 + d, tc.2 + 1)
  | none => acc ++ [(key, (d, 1))]

/-- `TransitGraph::get_route_average_delays` (src/metrics.rs): accumulate
`(total delay, trip count)` per ordered `(from, to)` pair over every edge, then
map to `((from, to), average, count)`. -/
def TransitGraph.get_route_average_delays (g : TransitGraph) :
    List ((Station × Station) × ℚ × Nat) :=
  let totalroutes :=
    g.nodes.foldl
      (fun acc p => p.2.foldl (fun acc2 td => routeStep acc2 (p.1, td.1) td.2) acc)
      []
  totalroutes.map (fun x => (x.1, x.2.1 / (x.2.2 : ℚ), x.2.2))

/-- Descending order on rows by average delay: the
`sort_by(|a, b| b.1.partial_cmp(&a.1).unwrap())` comparator. -/
def rankDescRel (a b : (Station × Station) × ℚ × Nat) : Prop := b.2.1 ≤ a.2.1

/-- Ascending order on rows by average delay: the
`sort_by(|a, b| a.1.partial_cmp(&b.1).unwrap())` comparator. -/
def rankAscRel (a b : (Station × Station) × ℚ × Nat) : Prop := a.2.1 ≤ b.2.1

instance : DecidableRel rankDescRel := fun a b =>
  inferInstanceAs (Decidable (b.2.1 ≤ a.2.1))

instance : DecidableRel rankAscRel := fun a b =>
  inferInstanceAs (Decidable (a.2.1 ≤ b.2.1))

instance : IsTotal ((Station × Station) × ℚ × Nat) rankDescRel :=
  ⟨fun a b => le_total b.2.1 a.2.1⟩

instance : IsTrans ((Station × Station) × ℚ × Nat) rankDescRel :=
  ⟨fun _ _ _ h1 h2 => le_trans h2 h1⟩

instance : IsTotal ((Station × Station) × ℚ × Nat) rankAscRel :=
  ⟨fun a b => le_total a.2.1 b.2.1⟩

instance : IsTrans ((Station × Station) × ℚ × Nat) rankAscRel :=
  ⟨fun _ _ _ h1 h2 => le_trans h1 h2⟩

/-- The ranked list built by `TransitGraph::rank_routes_by_average_delay`
(src/metrics.rs): rows with at least 5 trips, sorted by descending average
delay.  The source then prints the first `n` rows of this list; the printing
is dropped from the model. -/
def TransitGraph.rank_routes_by_average_delay (g : TransitGraph) :
    List ((Station × Station) × ℚ × Nat) :=
  List.insertionSort rankDescRel
    ((g.get_route_average_delays).filter (fun r => 5 ≤ r.2.2))

/-- The ranked list built by `TransitGraph::rank_routes_by_lowest_delay`
(src/metrics.rs): rows with at least 5 trips, sorted by ascending average
delay; the source prints the first `n` rows. -/
def TransitGraph.rank_routes_by_lowest_delay (g : TransitGraph) :
    List ((Station × Station) × ℚ × Nat) :=
  List.insertionSort rankAscRel
    ((g.get_route_average_delays).filter (fun r => 5 ≤ r.2.2))

/-- A directed path through the graph from `a` to `b`, as the list of visited
stations together with the cumulative weight of one choice of joining edges.
Consecutive elements are joined by edges of the adjacency structure; parallel
edges give distinct costs for the same station list. -/
inductive PathList (g : TransitGraph) : Station → Station → List Station → ℚ → Prop
  | single (a : Station) : PathList g a a [a] 0
  | cons {a b c : Station} {w rest : ℚ} {l : List Station} :
      (b, w) ∈ nbrs g a → PathList g b c l rest → PathList g a c (a :: l) (w + rest)

/-- `b` is reachable from `a` by a directed path (possibly of length zero). -/
def Reach (g : TransitGraph) (a b : Station) : Prop :=
  ∃ l c, PathList g a b l c

/-- All edge weights of the graph are non-negative, as the spec's data model
prescribes for delays. -/
def NonnegWeights (g : TransitGraph) : Prop :=
  ∀ p ∈ g.nodes, ∀ tw ∈ p.2, (0 : ℚ) ≤ tw.2

instance (g : TransitGraph) : Decidable (NonnegWeights g) :=
  inferInstanceAs (Decidable (∀ p ∈ g.nodes, ∀ tw ∈ p.2, (0 : ℚ) ≤ tw.2))

/-- Modelled from the spec's words for closeness centrality ("count of
stations reachable from `station`, excluding itself"): the reachable stations
among ALL stations of the graph, reachability read off from `shortest_path`.
Used to compare the spec's formula with the code's key-only iteration. -/
def specReachableStations (g : TransitGraph) (s : Station) : List Station :=
  g.all_stations.filter (fun t => t ≠ s ∧ (g.shortest_path s t).isSome)

/-- Modelled from the spec's words: the sum of the shortest-path delays from
`s` to each reachable station of the graph. -/
def specReachableSum (g : TransitGraph) (s : Station) : ℚ :=
  ((specReachableStations g s).map
    (fun t => ((g.shortest_path s t).map Prod.fst).getD 0)).sum

theorem lookupA_upsertA {κ α : Type} [DecidableEq κ] (m : List (κ × α)) (k k' : κ)
    (v : α) :
    lookupA (upsertA m k v) k' = if k = k' then some v else lookupA m k' := by
  induction m with
  | nil => by_cases h : k = k' <;> simp [upsertA, lookupA, h]
  | cons hd tl ih =>
    obtain ⟨k0, v0⟩ := hd
    by_cases h0 : k0 = k
    · subst h0
      by_cases h : k0 = k' <;> simp [upsertA, lookupA, h]
    · simp only [upsertA, if_neg h0, lookupA]
      by_cases h1 : k0 = k'
      · subst h1
        have : ¬ k = k0 := fun h => h0 h.symm
        simp [lookupA, this]
      · simp [lookupA, h1, ih]

theorem keys_upsertA {κ α : Type} [DecidableEq κ] (m : List (κ × α)) (k : κ) (v : α) :
    (upsertA m k v).map Prod.fst =
      if k ∈ m.map Prod.fst then m.map Prod.fst else m.map Prod.fst ++ [k] := by
  induction m with
  | nil => simp [upsertA]
  | cons hd tl ih =>
    obtain ⟨k0, v0⟩ := hd
    by_cases h0 : k0 = k
    · subst h0
      simp [upsertA]
    · have : ¬ k = k0 := fun h => h0 h.symm
      simp only [upsertA, if_neg h0, List.map_cons, List.mem_cons, ih]
      by_cases hk : k ∈ tl.map Prod.fst <;> simp [hk, this]

theorem nodup_keys_upsertA {κ α : Type} [DecidableEq κ] {m : List (κ × α)}
    (h : (m.map Prod.fst).Nodup) (k : κ) (v : α) :
    ((upsertA m k v).map Prod.fst).Nodup := by
  rw [keys_upsertA]
  by_cases hk : k ∈ m.map Prod.fst
  · simpa [hk]
  · simp only [hk, if_false]
    refine List.Nodup.append h (List.nodup_singleton k) ?_
    intro x hx hx'
    simp only [List.mem_singleton] at hx'
    exact hk (hx' ▸ hx)

theorem length_upsertA {κ α : Type} [DecidableEq κ] (m : List (κ × α)) (k : κ) (v : α) :
    (upsertA m k v).length ≤ m.length + 1 := by
  induction m with
  | nil => simp [upsertA]
  | cons hd tl ih =>
    obtain ⟨k0, v0⟩ := hd
    by_cases h0 : k0 = k
    · simp [upsertA, h0]
    · simp only [upsertA, if_neg h0, List.length_cons]
      omega

theorem lookupA_eq_none_iff {κ α : Type} [DecidableEq κ] (m : List (κ × α)) (k : κ) :
    lookupA m k = none ↔ k ∉ m.map Prod.fst := by
  induction m with
  | nil => simp [lookupA]
  | cons hd tl ih =>
    obtain ⟨k0, v0⟩ := hd
    by_cases h0 : k0 = k
    · subst h0
      simp [lookupA]
    · have hne : ¬ k = k0 := fun h => h0 h.symm
      simp only [lookupA, if_neg h0, List.map_cons, List.mem_cons, ih]
      constructor
      · intro h hk
        rcases hk with hk | hk
        · exact hne hk
        · exact h hk
      · intro h hk
        exact h (Or.inr hk)

theorem lookupA_isSome_iff {κ α : Type} [DecidableEq κ] (m : List (κ × α)) (k : κ) :
    (lookupA m k).isSome ↔ k ∈ m.map Prod.fst := by
  rcases h : lookupA m k with _ | v
  · rw [lookupA_eq_none_iff] at h
    simpa using h
  · simp only [Option.isSome_some, true_iff]
    by_contra hk
    rw [← lookupA_eq_none_iff] at hk
    rw [h] at hk
    exact Option.noConfusion hk

theorem lookupA_mem {κ α : Type} [DecidableEq κ] {m : List (κ × α)} {k : κ} {v : α}
    (h : lookupA m k = some v) : (k, v) ∈ m := by
  induction m with
  | nil => exact absurd h (by simp [lookupA])
  | cons hd tl ih =>
    obtain ⟨k0, v0⟩ := hd
    by_cases h0 : k0 = k
    · subst h0
      have h' : some v0 = some v := by simpa [lookupA] using h
      rw [Option.some.injEq] at h'
      subst h'
      exact List.mem_cons_self _ _
    · simp only [lookupA, if_neg h0] at h
      exact List.mem_cons_of_mem _ (ih h)

theorem mem_keys_lookupA {κ α : Type} [DecidableEq κ] {m : List (κ × α)} {k : κ}
    (h : k ∈ m.map Prod.fst) : ∃ v, lookupA m k = some v := by
  rcases hl : lookupA m k with _ | v
  · rw [lookupA_eq_none_iff] at hl
    exact absurd h hl
  · exact ⟨v, rfl⟩

theorem keys_modifyA {κ α : Type} [DecidableEq κ] (m : List (κ × α)) (k : κ)
    (f : α → α) : (modifyA m k f).map Prod.fst = m.map Prod.fst := by
  induction m with
  | nil => simp [modifyA]
  | cons hd tl ih =>
    obtain ⟨k0, v0⟩ := hd
    by_cases h0 : k0 = k <;> simp [modifyA, h0, ih]

theorem mem_modifyA {κ α : Type} [DecidableEq κ] (m : List (κ × α)) (k : κ)
    (f : α → α) : ∀ p ∈ modifyA m k f, ∃ q ∈ m, p.1 = q.1 ∧ (p.2 = q.2 ∨ p.2 = f q.2) := by
  induction m with
  | nil => intro p hp; exact absurd hp (by simp [modifyA])
  | cons hd tl ih =>
    intro p hp
    obtain ⟨k0, v0⟩ := hd
    by_cases h0 : k0 = k
    · subst h0
      rw [show modifyA ((k0, v0) :: tl) k0 f = (k0, f v0) :: tl from by
        simp [modifyA]] at hp
      rcases List.mem_cons.mp hp with h1 | h1
      · exact ⟨(k0, v0), List.mem_cons_self _ _, by simp [h1]⟩
      · exact ⟨p, List.mem_cons_of_mem _ h1, rfl, Or.inl rfl⟩
    · rw [show modifyA ((k0, v0) :: tl) k f = (k0, v0) :: modifyA tl k f from by
        simp [modifyA, h0]] at hp
      rcases List.mem_cons.mp hp with h1 | h1
      · exact ⟨(k0, v0), List.mem_cons_self _ _, by simp [h1]⟩
      · obtain ⟨q, hq, hq1, hq2⟩ := ih p h1
        exact ⟨q, List.mem_cons_of_mem _ hq, hq1, hq2⟩

theorem popMin_eq_none {l : List (ℚ × Station)} : popMin l = none ↔ l = [] := by
  cases l with
  | nil => simp [popMin]
  | cons x xs =>
    simp only [popMin]
    rcases h : popMin xs with _ | p
    · simp
    · obtain ⟨m, rest⟩ := p
      by_cases he : entryLe x m <;> simp [he]

theorem popMin_spec :
    ∀ l : List (ℚ × Station), ∀ m rest, popMin l = some (m, rest) →
      l.Perm (m :: rest) ∧ ∀ x ∈ l, m.1 ≤ x.1 := by
  intro l
  induction l with
  | nil => intro m rest h; exact absurd h (by simp [popMin])
  | cons x xs ih =>
    intro m rest h
    rcases hx : popMin xs with _ | p
    · simp only [popMin, hx] at h
      rw [popMin_eq_none] at hx
      subst hx
      simp only [Option.some.injEq, Prod.mk.injEq] at h
      obtain ⟨rfl, rfl⟩ := h
      exact ⟨List.Perm.refl _, by intro y hy; simp only [List.mem_singleton] at hy; simp [hy]⟩
    · obtain ⟨m', rest'⟩ := p
      simp only [popMin, hx] at h
      by_cases he : entryLe x m'
      · rw [if_pos he] at h
        simp only [Option.some.injEq, Prod.mk.injEq] at h
        obtain ⟨rfl, rfl⟩ := h
        refine ⟨List.Perm.refl _, ?_⟩
        intro y hy
        rcases List.mem_cons.mp hy with rfl | hy
        · exact le_refl _
        · have h1 : x.1 ≤ m'.1 := by
            rcases he with he | he
            · exact le_of_lt he
            · exact le_of_eq he.1
          exact le_trans h1 ((ih m' rest' hx).2 y hy)
      · rw [if_neg he] at h
        simp only [Option.some.injEq, Prod.mk.injEq] at h
        obtain ⟨rfl, rfl⟩ := h
        refine ⟨(((ih _ _ hx).1).cons x).trans (List.Perm.swap _ x _), ?_⟩
        intro y hy
        rcases List.mem_cons.mp hy with rfl | hy
        · rcases lt_trichotomy y.1 m'.1 with hlt | heq | hgt
          · exact absurd (Or.inl hlt) he
          · exact le_of_eq heq.symm
          · exact le_of_lt hgt
        · exact (ih _ _ hx).2 y hy

theorem popMin_perm {l : List (ℚ × Station)} {m : ℚ × Station}
    {rest : List (ℚ × Station)} (h : popMin l = some (m, rest)) :
    l.Perm (m :: rest) :=
  (popMin_spec l m rest h).1

theorem popMin_min {l : List (ℚ × Station)} {m : ℚ × Station}
    {rest : List (ℚ × Station)} (h : popMin l = some (m, rest)) :
    ∀ x ∈ l, m.1 ≤ x.1 :=
  (popMin_spec l m rest h).2

theorem popMin_mem {l : List (ℚ × Station)} {m : ℚ × Station}
    {rest : List (ℚ × Station)} (h : popMin l = some (m, rest)) : m ∈ l :=
  (popMin_perm h).mem_iff.mpr (List.mem_cons_self _ _)

theorem mem_insertNew {l : List Station} {s x : Station} :
    x ∈ insertNew l s ↔ x ∈ l ∨ x = s := by
  unfold insertNew
  by_cases h : s ∈ l
  · simp only [if_pos h]
    constructor
    · exact Or.inl
    · rintro (hx | rfl)
      · exact hx
      · exact h
  · simp [if_neg h]

theorem nodup_insertNew {l : List Station} (h : l.Nodup) (s : Station) :
    (insertNew l s).Nodup := by
  unfold insertNew
  by_cases hs : s ∈ l
  · simpa [if_pos hs]
  · simp only [if_neg hs]
    refine List.Nodup.append h (List.nodup_singleton s) ?_
    intro x hx hx'
    simp only [List.mem_singleton] at hx'
    exact hs (hx' ▸ hx)

theorem mem_foldl_insertNew (f : Station × ℚ → Station) :
    ∀ (es : List (Station × ℚ)) (acc : List Station) (x : Station),
      x ∈ es.foldl (fun a td => insertNew a (f td)) acc ↔
        x ∈ acc ∨ ∃ td ∈ es, f td = x := by
  intro es
  induction es with
  | nil => intro acc x; simp
  | cons e es ih =>
    intro acc x
    simp only [List.foldl_cons, ih, mem_insertNew, List.mem_cons]
    constructor
    · rintro ((hx | rfl) | ⟨td, htd, rfl⟩)
      · exact Or.inl hx
      · exact Or.inr ⟨e, Or.inl rfl, rfl⟩
      · exact Or.inr ⟨td, Or.inr htd, rfl⟩
    · rintro (hx | ⟨td, (rfl | htd), rfl⟩)
      · exact Or.inl (Or.inl hx)
      · exact Or.inl (Or.inr rfl)
      · exact Or.inr ⟨td, htd, rfl⟩

theorem nodup_foldl_insertNew (f : Station × ℚ → Station) :
    ∀ (es : List (Station × ℚ)) (acc : List Station), acc.Nodup →
      (es.foldl (fun a td => insertNew a (f td)) acc).Nodup := by
  intro es
  induction es with
  | nil => intro acc h; simpa using h
  | cons e es ih =>
    intro acc h
    exact ih _ (nodup_insertNew h _)

theorem mem_all_stations {g : TransitGraph} {x : Station} :
    x ∈ g.all_stations ↔
      ∃ p ∈ g.nodes, p.1 = x ∨ ∃ td ∈ p.2, td.1 = x := by
  unfold TransitGraph.all_stations
  suffices h : ∀ (ns : List (Station × List (Station × ℚ))) (acc : List Station),
      x ∈ ns.foldl
        (fun acc p => p.2.foldl (fun a td => insertNew a td.1) (insertNew acc p.1)) acc ↔
        x ∈ acc ∨ ∃ p ∈ ns, p.1 = x ∨ ∃ td ∈ p.2, td.1 = x by
    rw [h g.nodes []]
    simp
  intro ns
  induction ns with
  | nil => intro acc; simp
  | cons p ps ih =>
    intro acc
    simp only [List.foldl_cons, ih, mem_foldl_insertNew, mem_insertNew, List.mem_cons]
    constructor
    · rintro (((hx | rfl) | ⟨td, htd, rfl⟩) | ⟨q, hq, hq'⟩)
      · exact Or.inl hx
      · exact Or.inr ⟨p, Or.inl rfl, Or.inl rfl⟩
      · exact Or.inr ⟨p, Or.inl rfl, Or.inr ⟨td, htd, rfl⟩⟩
      · exact Or.inr ⟨q, Or.inr hq, hq'⟩
    · rintro (hx | ⟨q, (rfl | hq), hq'⟩)
      · exact Or.inl (Or.inl (Or.inl hx))
      · rcases hq' with rfl | ⟨td, htd, rfl⟩
        · exact Or.inl (Or.inl (Or.inr rfl))
        · exact Or.inl (Or.inr ⟨td, htd, rfl⟩)
      · exact Or.inr ⟨q, hq, hq'⟩

theorem nodup_all_stations (g : TransitGraph) : g.all_stations.Nodup := by
  unfold TransitGraph.all_stations
  suffices h : ∀ (ns : List (Station × List (Station × ℚ))) (acc : List Station),
      acc.Nodup →
      (ns.foldl
        (fun acc p => p.2.foldl (fun a td => insertNew a td.1) (insertNew acc p.1))
        acc).Nodup by
    exact h g.nodes [] List.nodup_nil
  intro ns
  induction ns with
  | nil => intro acc h; simpa using h
  | cons p ps ih =>
    intro acc h
    exact ih _ (nodup_foldl_insertNew _ _ _ (nodup_insertNew h _))

theorem key_mem_all_stations {g : TransitGraph} {v : Station}
    (h : v ∈ g.nodes.map Prod.fst) : v ∈ g.all_stations := by
  rw [List.mem_map] at h
  obtain ⟨p, hp, rfl⟩ := h
  exact mem_all_stations.mpr ⟨p, hp, Or.inl rfl⟩

theorem nbrs_target_mem_all_stations {g : TransitGraph} {v t : Station} {w : ℚ}
    (h : (t, w) ∈ nbrs g v) : t ∈ g.all_stations := by
  unfold nbrs TransitGraph.get at h
  rcases hg : lookupA g.nodes v with _ | ns
  · rw [hg] at h
    exact absurd h (by simp)
  · rw [hg] at h
    simp only [Option.getD_some] at h
    exact mem_all_stations.mpr ⟨(v, ns), lookupA_mem hg, Or.inr ⟨(t, w), h, rfl⟩⟩

theorem nbrs_weight_nonneg {g : TransitGraph} (hw : NonnegWeights g) {v t : Station}
    {w : ℚ} (h : (t, w) ∈ nbrs g v) : 0 ≤ w := by
  unfold nbrs TransitGraph.get at h
  rcases hg : lookupA g.nodes v with _ | ns
  · rw [hg] at h
    exact absurd h (by simp)
  · rw [hg] at h
    simp only [Option.getD_some] at h
    exact hw (v, ns) (lookupA_mem hg) (t, w) h

theorem start_mem_stationUniverse (g : TransitGraph) (start : Station) :
    start ∈ stationUniverse g start :=
  mem_insertNew.mpr (Or.inr rfl)

theorem all_stations_sub_stationUniverse (g : TransitGraph) (start : Station) :
    ∀ x ∈ g.all_stations, x ∈ stationUniverse g start :=
  fun _ hx => mem_insertNew.mpr (Or.inl hx)

theorem nodup_stationUniverse (g : TransitGraph) (start : Station) :
    (stationUniverse g start).Nodup :=
  nodup_insertNew (nodup_all_stations g) start

theorem PathList.nonneg {g : TransitGraph} (hw : NonnegWeights g)
    {a b : Station} {l : List Station} {c : ℚ} (h : PathList g a b l c) : 0 ≤ c := by
  induction h with
  | single => exact le_refl 0
  | cons he _ ih => exact add_nonneg (nbrs_weight_nonneg hw he) ih

theorem PathList.snoc {g : TransitGraph} {a b t : Station} {l : List Station}
    {c w : ℚ} (h : PathList g a b l c) (he : (t, w) ∈ nbrs g b) :
    PathList g a t (l ++ [t]) (c + w) := by
  induction h with
  | single a => simpa using PathList.cons he (PathList.single t)
  | cons he' hp ih =>
    rw [List.cons_append, add_assoc]
    exact PathList.cons he' (ih he)

theorem PathList.head_eq {g : TransitGraph} {a b : Station} {l : List Station}
    {c : ℚ} (h : PathList g a b l c) : l.head? = some a := by
  cases h with
  | single => rfl
  | cons he hp => rfl

theorem PathList.ne_nil {g : TransitGraph} {a b : Station} {l : List Station}
    {c : ℚ} (h : PathList g a b l c) : l ≠ [] := by
  cases h with
  | single => simp
  | cons he hp => simp

theorem PathList.last_eq {g : TransitGraph} {a b : Station} {l : List Station}
    {c : ℚ} (h : PathList g a b l c) : l.getLast? = some b := by
  induction h with
  | single => rfl
  | @cons a' b' c' w' rest' l' he hp ih =>
    cases l' with
    | nil => exact absurd rfl (PathList.ne_nil hp)
    | cons x xs =>
      rw [List.getLast?_cons_cons]
      exact ih

/-- The predecessor-pointer segment from anchor `a` up to `v`: the stations
reached by following `previous` links backward from `v` until `a`, listed in
forward order and excluding `a` itself. -/
inductive Seg (prev : List (Station × Station)) (a : Station) : Station → List Station → Prop
  | refl : Seg prev a a []
  | step {v u : Station} {l : List Station} :
      lookupA prev v = some u → Seg prev a u l → Seg prev a v (l ++ [v])

theorem Seg.deterministic {prev : List (Station × Station)} {a : Station}
    (hstart : lookupA prev a = none) :
    ∀ {v : Station} {l1 l2 : List Station},
      Seg prev a v l1 → Seg prev a v l2 → l1 = l2 := by
  intro v l1 l2 h1
  induction h1 generalizing l2 with
  | refl =>
    intro h2
    cases h2 with
    | refl => rfl
    | step hv hl =>
      rw [hstart] at hv
      exact Option.noConfusion hv
  | @step v u l hv hl ih =>
    intro h2
    cases h2 with
    | refl =>
      rw [hstart] at hv
      exact Option.noConfusion hv
    | @step _ u' l' hv' hl' =>
      rw [hv] at hv'
      rw [Option.some.injEq] at hv'
      subst hv'
      rw [ih hl']

theorem Seg.mem_keys {prev : List (Station × Station)} {a : Station} :
    ∀ {v : Station} {l : List Station}, Seg prev a v l →
      ∀ x ∈ l, x ∈ prev.map Prod.fst := by
  intro v l h
  induction h with
  | refl => intro x hx; exact absurd hx (by simp)
  | @step v u l hv hl ih =>
    intro x hx
    rcases List.mem_append.mp hx with hx | hx
    · exact ih x hx
    · rw [List.mem_singleton] at hx
      subst hx
      exact (lookupA_isSome_iff prev x).mp (by rw [hv]; rfl)

theorem Seg.mem_sub {prev : List (Station × Station)} {a : Station} :
    ∀ {v : Station} {l : List Station}, Seg prev a v l →
      ∀ x ∈ l, ∃ lx, Seg prev a x lx ∧ lx.length ≤ l.length := by
  intro v l h
  induction h with
  | refl => intro x hx; exact absurd hx (by simp)
  | @step v u l hv hl ih =>
    intro x hx
    rcases List.mem_append.mp hx with hx | hx
    · obtain ⟨lx, hlx, hle⟩ := ih x hx
      exact ⟨lx, hlx, le_trans hle (by simp)⟩
    · rw [List.mem_singleton] at hx
      subst hx
      exact ⟨l ++ [x], Seg.step hv hl, le_refl _⟩

theorem Seg.nodup {prev : List (Station × Station)} {a : Station}
    (hstart : lookupA prev a = none) :
    ∀ {v : Station} {l : List Station}, Seg prev a v l → l.Nodup := by
  intro v l h
  induction h with
  | refl => exact List.nodup_nil
  | @step v u l hv hl ih =>
    refine List.Nodup.append ih (List.nodup_singleton v) ?_
    intro x hx hx'
    rw [List.mem_singleton] at hx'
    subst hx'
    obtain ⟨lx, hlx, hle⟩ := Seg.mem_sub hl x hx
    have heq : lx = l ++ [x] := Seg.deterministic hstart hlx (Seg.step hv hl)
    rw [heq] at hle
    simp only [List.length_append, List.length_singleton] at hle
    omega

theorem Seg.length_le {prev : List (Station × Station)} {a : Station}
    (hstart : lookupA prev a = none) (hnd : (prev.map Prod.fst).Nodup) :
    ∀ {v : Station} {l : List Station}, Seg prev a v l → l.length ≤ prev.length := by
  intro v l h
  classical
  have hsub : ∀ x ∈ l, x ∈ prev.map Prod.fst := Seg.mem_keys h
  have hndl : l.Nodup := Seg.nodup hstart h
  have h1 : l.toFinset.card = l.length := List.toFinset_card_of_nodup hndl
  have h2 : (prev.map Prod.fst).toFinset.card = (prev.map Prod.fst).length :=
    List.toFinset_card_of_nodup hnd
  have h3 : l.toFinset ⊆ (prev.map Prod.fst).toFinset := by
    intro x hx
    rw [List.mem_toFinset] at hx ⊢
    exact hsub x hx
  have h4 := Finset.card_le_card h3
  rw [h1, h2, List.length_map] at h4
  exact h4

theorem Seg.reconstruct {prev : List (Station × Station)} {a : Station}
    (hstart : lookupA prev a = none) :
    ∀ {v : Station} {l : List Station}, Seg prev a v l →
      ∀ fuel, l.length ≤ fuel → ∀ acc,
        reconstructPath prev fuel v acc = a :: (l ++ acc) := by
  intro v l h
  induction h with
  | refl =>
    intro fuel _ acc
    cases fuel with
    | zero => simp [reconstructPath]
    | succ f => simp [reconstructPath, hstart]
  | @step v u l hv hl ih =>
    intro fuel hfuel acc
    cases fuel with
    | zero => simp at hfuel
    | succ f =>
      simp only [List.length_append, List.length_singleton] at hfuel
      simp only [reconstructPath, hv]
      rw [ih f (by omega) (v :: acc)]
      simp

theorem Seg.getLast_eq {prev : List (Station × Station)} {a : Station}
    {v : Station} {l : List Station} (h : Seg prev a v l) (hne : l ≠ []) :
    l.getLast? = some v := by
  cases h with
  | refl => exact absurd rfl hne
  | step hv hl => simp

theorem Seg.transfer {prev : List (Station × Station)} {a t pu : Station} :
    ∀ {v : Station} {l : List Station}, Seg prev a v l → (∀ x ∈ l, x ≠ t) →
      Seg (upsertA prev t pu) a v l := by
  intro v l h
  induction h with
  | refl => intro _; exact Seg.refl
  | @step v u l hv hl ih =>
    intro hne
    have hvt : v ≠ t := hne v (by simp)
    refine Seg.step ?_ (ih (fun x hx => hne x (by simp [hx])))
    rw [lookupA_upsertA]
    rw [if_neg (fun h => hvt h.symm)]
    exact hv

theorem Seg.split {prev : List (Station × Station)} {a t : Station} :
    ∀ {v : Station} {l : List Station}, Seg prev a v l → t ∈ l →
      ∃ s1 s2, l = s1 ++ s2 ∧ Seg prev a t s1 ∧ Seg prev t v s2 ∧ t ∉ s2 := by
  intro v l h
  induction h with
  | refl => intro ht; exact absurd ht (by simp)
  | @step v u l hv hl ih =>
    intro ht
    rcases List.mem_append.mp ht with ht | ht
    · obtain ⟨s1, s2, rfl, h1, h2, h3⟩ := ih ht
      by_cases hvt : v = t
      · subst hvt
        exact ⟨s1 ++ s2 ++ [v], [], by simp, Seg.step hv hl, Seg.refl, by simp⟩
      · refine ⟨s1, s2 ++ [v], by simp, h1, Seg.step hv h2, ?_⟩
        intro hmem
        rcases List.mem_append.mp hmem with hm | hm
        · exact h3 hm
        · rw [List.mem_singleton] at hm
          exact hvt hm.symm
    · rw [List.mem_singleton] at ht
      subst ht
      exact ⟨l ++ [t], [], by simp, Seg.step hv hl, Seg.refl, by simp⟩

theorem Seg.glue {prev : List (Station × Station)} {a t : Station}
    {s1 : List Station} (h1 : Seg prev a t s1) :
    ∀ {v : Station} {s2 : List Station}, Seg prev t v s2 →
      Seg prev a v (s1 ++ s2) := by
  intro v s2 h2
  induction h2 with
  | refl => simpa using h1
  | @step v u l hv hl ih =>
    rw [← List.append_assoc]
    exact Seg.step hv ih

/-- Predecessor links are cost-sound: every recorded link `v ↦ u` is witnessed
by an actual edge `u → v` whose relaxation inequality still holds for the
current distance estimates. -/
def LinksInv (g : TransitGraph) (dist : List (Station × ℚ))
    (prev : List (Station × Station)) : Prop :=
  ∀ v u, lookupA prev v = some u →
    ∃ w du dv, (v, w) ∈ nbrs g u ∧ lookupA dist u = some du ∧
      lookupA dist v = some dv ∧ du + w ≤ dv

/-- State invariants of `shortest_path` that concern only the distance and
predecessor maps. -/
structure DCore (g : TransitGraph) (start : Station) (dist : List (Station × ℚ))
    (prev : List (Station × Station)) : Prop where
  dist_nodup : (dist.map Prod.fst).Nodup
  prev_nodup : (prev.map Prod.fst).Nodup
  start_dist : lookupA dist start = some 0
  start_noprev : lookupA prev start = none
  links : LinksInv g dist prev
  chains : ∀ v ∈ dist.map Prod.fst, ∃ l, Seg prev start v l
  keys_sub : ∀ v ∈ dist.map Prod.fst, v ∈ stationUniverse g start

/-- Full loop invariant of the Dijkstra loop, with ghost state: the settled
set `S` and the lower bound `b` on all live heap keys (the last popped key). -/
structure DInv (g : TransitGraph) (start endS : Station) (dist : List (Station × ℚ))
    (prev : List (Station × Station)) (heap : List (ℚ × Station))
    (S : Finset Station) (b : ℚ) : Prop where
  core : DCore g start dist prev
  hdom : ∀ kv ∈ heap, ∃ dv, lookupA dist kv.2 = some dv ∧ dv ≤ kv.1 ∧ b ≤ kv.1
  b_nonneg : 0 ≤ b
  frontier : ∀ v dv, lookupA dist v = some dv → (dv, v) ∈ heap ∨ v ∈ S
  settled : ∀ v ∈ S, ∃ dv, lookupA dist v = some dv ∧ dv ≤ b ∧
    ∀ tw ∈ nbrs g v, ∃ dt, lookupA dist tw.1 = some dt ∧ dt ≤ dv + tw.2
  endS_not : endS ∉ S

theorem seg_pathlist {g : TransitGraph} {start : Station} {dist : List (Station × ℚ)}
    {prev : List (Station × Station)} (hstart : lookupA dist start = some 0)
    (hlinks : LinksInv g dist prev) :
    ∀ {v : Station} {l : List Station}, Seg prev start v l →
      ∃ c dv, PathList g start v (start :: l) c ∧ lookupA dist v = some dv ∧ c ≤ dv := by
  intro v l h
  induction h with
  | refl => exact ⟨0, 0, PathList.single start, hstart, le_refl 0⟩
  | @step v u l hv hl ih =>
    obtain ⟨w, du, dv, he, hdu, hdv, hle⟩ := hlinks v u hv
    obtain ⟨c0, du', hpath, hdu', hc0⟩ := ih
    rw [hdu] at hdu'
    rw [Option.some.injEq] at hdu'
    subst hdu'
    refine ⟨c0 + w, dv, ?_, hdv, ?_⟩
    · have := PathList.snoc hpath he
      rwa [List.cons_append] at this
    · calc c0 + w ≤ du + w := by linarith
        _ ≤ dv := hle

theorem seg_dist_bound {g : TransitGraph} (hw : NonnegWeights g) {start : Station}
    {dist : List (Station × ℚ)} {prev : List (Station × Station)}
    (hlinks : LinksInv g dist prev) :
    ∀ {v : Station} {l : List Station}, Seg prev start v l →
      ∀ {dv : ℚ}, lookupA dist v = some dv →
      ∀ x ∈ l, ∃ dx, lookupA dist x = some dx ∧ dx ≤ dv := by
  intro v l h
  induction h with
  | refl => intro dv _ x hx; exact absurd hx (by simp)
  | @step v u l hv hl ih =>
    intro dv hdv x hx
    obtain ⟨w, du, dv', he, hdu, hdv', hle⟩ := hlinks v u hv
    rw [hdv] at hdv'
    rw [Option.some.injEq] at hdv'
    subst hdv'
    rcases List.mem_append.mp hx with hx | hx
    · have hdu_le : du ≤ dv := le_trans (by linarith [nbrs_weight_nonneg hw he]) hle
      obtain ⟨dx, hdx, hdx_le⟩ := ih hdu x hx
      exact ⟨dx, hdx, le_trans hdx_le hdu_le⟩
    · rw [List.mem_singleton] at hx
      subst hx
      exact ⟨dv, hdv, le_refl dv⟩

theorem frontier_path {g : TransitGraph} (hw : NonnegWeights g)
    {dist : List (Station × ℚ)} {heap : List (ℚ × Station)} {S : Finset Station}
    (hfr : ∀ v dv, lookupA dist v = some dv → (dv, v) ∈ heap ∨ v ∈ S)
    (hset : ∀ v ∈ S, ∃ dv, lookupA dist v = some dv ∧
      ∀ tw ∈ nbrs g v, ∃ dt, lookupA dist tw.1 = some dt ∧ dt ≤ dv + tw.2) :
    ∀ {x z : Station} {l : List Station} {c2 : ℚ}, PathList g x z l c2 →
      ∀ dx cx, lookupA dist x = some dx → dx ≤ cx →
      (∃ dz, lookupA dist z = some dz ∧ dz ≤ cx + c2) ∨
        (∃ ky y, (ky, y) ∈ heap ∧ ky ≤ cx + c2) := by
  intro x z l c2 h
  induction h with
  | single a =>
    intro dx cx hdx hle
    exact Or.inl ⟨dx, hdx, by linarith⟩
  | @cons a m zz w c3 l' he hp ih =>
    intro dx cx hdx hle
    have hw_nonneg : 0 ≤ w := nbrs_weight_nonneg hw he
    have hc3 : 0 ≤ c3 := PathList.nonneg hw hp
    rcases hfr a dx hdx with hheap | hS
    · exact Or.inr ⟨dx, a, hheap, by linarith⟩
    · obtain ⟨dv, hdv, hclose⟩ := hset a hS
      rw [hdx] at hdv
      rw [Option.some.injEq] at hdv
      subst hdv
      obtain ⟨dt, hdt, hdt_le⟩ := hclose (m, w) he
      rcases ih dt (cx + w) hdt (by linarith) with ⟨dz, hdz, hdz_le⟩ | ⟨ky, y, hy, hy_le⟩
      · exact Or.inl ⟨dz, hdz, by linarith⟩
      · exact Or.inr ⟨ky, y, hy, by linarith⟩

/-- Relaxing the edges of an already-settled station makes no improvement and
leaves the state unchanged. -/
theorem relax_noop {dist : List (Station × ℚ)} {prev : List (Station × Station)}
    {heap : List (ℚ × Station)} {u : Station} {d : ℚ} :
    ∀ {ns : List (Station × ℚ)},
      (∀ tw ∈ ns, ∃ dt, lookupA dist tw.1 = some dt ∧ dt ≤ d + tw.2) →
      relax u d (dist, prev, heap) ns = (dist, prev, heap) := by
  intro ns
  induction ns with
  | nil => intro _; rfl
  | cons tw ns ih =>
    intro h
    obtain ⟨dt, hdt, hle⟩ := h tw (by simp)
    have hns : ∀ tw' ∈ ns, ∃ dt', lookupA dist tw'.1 = some dt' ∧ dt' ≤ d + tw'.2 :=
      fun tw' htw' => h tw' (by simp [htw'])
    unfold relax at ih ⊢
    simp only [List.foldl_cons]
    have hstep : relaxStep u d (dist, prev, heap) tw = (dist, prev, heap) := by
      unfold relaxStep
      rw [hdt]
      simp only [decide_eq_true_eq]
      rw [if_neg]
      simp only [decide_eq_true_eq, not_lt]
      exact hle
    rw [hstep]
    exact ih hns

/-- Invariant maintained through the relaxation fold of a fresh pop of `u`
with key `k = dist[u]`; `S` is the settled set before the pop and `processed`
the prefix of `u`'s adjacency list already relaxed. -/
structure RInv (g : TransitGraph) (start u : Station) (k : ℚ) (S : Finset Station)
    (st : List (Station × ℚ) × List (Station × Station) × List (ℚ × Station))
    (processed : List (Station × ℚ)) : Prop where
  core : DCore g start st.1 st.2.1
  u_dist : lookupA st.1 u = some k
  k_nonneg : 0 ≤ k
  hdom : ∀ kv ∈ st.2.2, ∃ dv, lookupA st.1 kv.2 = some dv ∧ dv ≤ kv.1 ∧ k ≤ kv.1
  frontier : ∀ v dv, lookupA st.1 v = some dv → (dv, v) ∈ st.2.2 ∨ v ∈ insert u S
  settled : ∀ v ∈ S, ∃ dv, lookupA st.1 v = some dv ∧ dv ≤ k ∧
    ∀ tw ∈ nbrs g v, ∃ dt, lookupA st.1 tw.1 = some dt ∧ dt ≤ dv + tw.2
  processed_closed : ∀ tw ∈ processed, ∃ dt, lookupA st.1 tw.1 = some dt ∧ dt ≤ k + tw.2

theorem relax_update_case {g : TransitGraph} {start u : Station} {k : ℚ}
    {S : Finset Station} (hw : NonnegWeights g)
    {dist : List (Station × ℚ)} {prev : List (Station × Station)}
    {heap : List (ℚ × Station)} {processed : List (Station × ℚ)}
    (inv : RInv g start u k S (dist, prev, heap) processed)
    {t : Station} {w : ℚ} (htw : (t, w) ∈ nbrs g u) (hw0 : 0 ≤ w)
    (ht_ne_u : t ≠ u) (ht_ne_start : t ≠ start) (ht_not_S : t ∉ S)
    (hcase : lookupA dist t = none ∨ ∃ cur, lookupA dist t = some cur ∧ k + w < cur) :
    RInv g start u k S (upsertA dist t (k + w), upsertA prev t u, (k + w, t) :: heap)
      (processed ++ [(t, w)]) ∧
    ((k + w, t) :: heap).length ≤ heap.length + 1 := by
  have hbound : ∀ dv, lookupA dist t = some dv → k + w < dv := by
    intro dv hdv
    rcases hcase with h | ⟨cur, hcur, hlt⟩
    · rw [h] at hdv
      exact Option.noConfusion hdv
    · rw [hcur] at hdv
      rw [Option.some.injEq] at hdv
      exact hdv ▸ hlt
  have hlook : ∀ x, lookupA (upsertA dist t (k + w)) x =
      if t = x then some (k + w) else lookupA dist x := fun x => lookupA_upsertA dist t x _
  have hlookp : ∀ x, lookupA (upsertA prev t u) x =
      if t = x then some u else lookupA prev x := fun x => lookupA_upsertA prev t x _
  have hcore : DCore g start (upsertA dist t (k + w)) (upsertA prev t u) := by
    refine ⟨nodup_keys_upsertA inv.core.dist_nodup t _,
      nodup_keys_upsertA inv.core.prev_nodup t u, ?_, ?_, ?_, ?_, ?_⟩
    · rw [hlook start, if_neg ht_ne_start]
      exact inv.core.start_dist
    · rw [hlookp start, if_neg ht_ne_start]
      exact inv.core.start_noprev
    · -- links
      intro v' u'' hl
      rw [hlookp v'] at hl
      by_cases hvt : t = v'
      · rw [if_pos hvt] at hl
        rw [Option.some.injEq] at hl
        subst hl
        subst hvt
        refine ⟨w, k, k + w, htw, ?_, ?_, le_refl _⟩
        · rw [hlook u, if_neg ht_ne_u]
          exact inv.u_dist
        · rw [hlook t, if_pos rfl]
      · rw [if_neg hvt] at hl
        obtain ⟨w', du', dv', he', hdu', hdv', hle'⟩ := inv.core.links v' u'' hl
        by_cases hut : t = u''
        · subst hut
          have hlt' : k + w < du' := hbound du' hdu'
          refine ⟨w', k + w, dv', he', ?_, ?_, ?_⟩
          · rw [hlook t, if_pos rfl]
          · rw [hlook v', if_neg hvt]
            exact hdv'
          · linarith
        · refine ⟨w', du', dv', he', ?_, ?_, hle'⟩
          · rw [hlook u'', if_neg hut]
            exact hdu'
          · rw [hlook v', if_neg hvt]
            exact hdv'
    · -- chains
      have hu_mem : u ∈ dist.map Prod.fst :=
        (lookupA_isSome_iff dist u).mp (by rw [inv.u_dist]; rfl)
      obtain ⟨lu, hlu⟩ := inv.core.chains u hu_mem
      have hlu_ne_t : ∀ x ∈ lu, x ≠ t := by
        intro x hx hxt
        subst hxt
        obtain ⟨dx, hdx, hdx_le⟩ :=
          seg_dist_bound hw inv.core.links hlu inv.u_dist x hx
        have := hbound dx hdx
        linarith
      have hlu' : Seg (upsertA prev t u) start u lu := Seg.transfer hlu hlu_ne_t
      have hchain_t : Seg (upsertA prev t u) start t (lu ++ [t]) :=
        Seg.step (by rw [hlookp t, if_pos rfl]) hlu'
      intro v' hv'
      rw [keys_upsertA] at hv'
      by_cases hvt : v' = t
      · rw [hvt]
        exact ⟨lu ++ [t], hchain_t⟩
      · have hv'_old : v' ∈ dist.map Prod.fst := by
          by_cases hmem : t ∈ dist.map Prod.fst
          · rwa [if_pos hmem] at hv'
          · rw [if_neg hmem] at hv'
            rcases List.mem_append.mp hv' with h | h
            · exact h
            · rw [List.mem_singleton] at h
              exact absurd h hvt
        obtain ⟨lv', hlv'⟩ := inv.core.chains v' hv'_old
        by_cases htl : t ∈ lv'
        · obtain ⟨s1, s2, heq, hs1, hs2, hts2⟩ := Seg.split hlv' htl
          have hs2' : Seg (upsertA prev t u) t v' s2 :=
            Seg.transfer hs2 (fun x hx hxt => hts2 (hxt ▸ hx))
          exact ⟨(lu ++ [t]) ++ s2, Seg.glue hchain_t hs2'⟩
        · exact ⟨lv', Seg.transfer hlv' (fun x hx hxt => htl (hxt ▸ hx))⟩
    · -- keys_sub
      intro v' hv'
      rw [keys_upsertA] at hv'
      by_cases hmem : t ∈ dist.map Prod.fst
      · rw [if_pos hmem] at hv'
        exact inv.core.keys_sub v' hv'
      · rw [if_neg hmem] at hv'
        rcases List.mem_append.mp hv' with h | h
        · exact inv.core.keys_sub v' h
        · rw [List.mem_singleton] at h
          subst h
          exact all_stations_sub_stationUniverse g start v'
            (nbrs_target_mem_all_stations htw)
  refine ⟨⟨hcore, ?_, inv.k_nonneg, ?_, ?_, ?_, ?_⟩, by simp⟩
  · rw [hlook u, if_neg ht_ne_u]
    exact inv.u_dist
  · -- hdom
    intro kv hkv
    rcases List.mem_cons.mp hkv with rfl | hkv
    · exact ⟨k + w, by rw [hlook t]; simp, le_refl _, by show k ≤ k + w; linarith⟩
    · obtain ⟨dv, hdv, h1, h2⟩ := inv.hdom kv hkv
      by_cases hvt : t = kv.2
      · have hlt' : k + w < dv := hbound dv (hvt ▸ hdv)
        refine ⟨k + w, ?_, by linarith, h2⟩
        rw [hlook kv.2, if_pos hvt]
      · refine ⟨dv, ?_, h1, h2⟩
        rw [hlook kv.2, if_neg hvt]
        exact hdv
  · -- frontier
    intro v' dv' hl
    rw [hlook v'] at hl
    by_cases hvt : t = v'
    · rw [if_pos hvt] at hl
      rw [Option.some.injEq] at hl
      subst hvt
      exact Or.inl (by rw [← hl]; exact List.mem_cons_self _ _)
    · rw [if_neg hvt] at hl
      rcases inv.frontier v' dv' hl with h | h
      · exact Or.inl (List.mem_cons_of_mem _ h)
      · exact Or.inr h
  · -- settled
    intro v hv
    have hv_ne_t : v ≠ t := fun h => ht_not_S (h ▸ hv)
    obtain ⟨dv, hdv, hdvk, hclose⟩ := inv.settled v hv
    refine ⟨dv, ?_, hdvk, ?_⟩
    · rw [hlook v, if_neg (fun h => hv_ne_t h.symm)]
      exact hdv
    · intro tw' htw'
      obtain ⟨dt', hdt', hle'⟩ := hclose tw' htw'
      by_cases hwt : t = tw'.1
      · have hlt' : k + w < dt' := hbound dt' (hwt ▸ hdt')
        refine ⟨k + w, ?_, by linarith⟩
        rw [hlook tw'.1, if_pos hwt]
      · refine ⟨dt', ?_, hle'⟩
        rw [hlook tw'.1, if_neg hwt]
        exact hdt'
  · -- processed_closed
    intro tw' htw'
    rcases List.mem_append.mp htw' with h | h
    · obtain ⟨dt', hdt', hle'⟩ := inv.processed_closed tw' h
      by_cases hwt : t = tw'.1
      · have hlt' : k + w < dt' := hbound dt' (hwt ▸ hdt')
        refine ⟨k + w, ?_, by linarith⟩
        rw [hlook tw'.1, if_pos hwt]
      · refine ⟨dt', ?_, hle'⟩
        rw [hlook tw'.1, if_neg hwt]
        exact hdt'
    · rw [List.mem_singleton] at h
      subst h
      exact ⟨k + w, by rw [hlook t]; simp, le_refl _⟩

theorem relaxStep_maintains {g : TransitGraph} {start u : Station} {k : ℚ}
    {S : Finset Station} (hw : NonnegWeights g)
    {dist : List (Station × ℚ)} {prev : List (Station × Station)}
    {heap : List (ℚ × Station)} {processed : List (Station × ℚ)}
    (inv : RInv g start u k S (dist, prev, heap) processed)
    {tw : Station × ℚ} (htw : tw ∈ nbrs g u) :
    RInv g start u k S (relaxStep u k (dist, prev, heap) tw) (processed ++ [tw]) ∧
      (relaxStep u k (dist, prev, heap) tw).2.2.length ≤ heap.length + 1 := by
  obtain ⟨t, w⟩ := tw
  have hw0 : 0 ≤ w := nbrs_weight_nonneg hw htw
  -- The no-improvement outcome keeps the state; both improvement outcomes
  -- update `dist`, `previous` and push one heap entry.
  by_cases himp : ∀ cur, lookupA dist t = some cur → ¬ (k + w < cur)
  · -- no improvement, or a present entry at least as good
    rcases hcur : lookupA dist t with _ | cur
    · -- absent entry: `is_better` is true, so this case is impossible only
      -- when the entry is present; here the update fires.
      -- (handled in the improvement branch below; this sub-branch performs
      -- the update because `is_better = true` for an absent key)
      have hstep : relaxStep u k (dist, prev, heap) (t, w) =
          (upsertA dist t (k + w), upsertA prev t u, (k + w, t) :: heap) := by
        unfold relaxStep
        rw [hcur]
        simp
      have ht_notkey : t ∉ dist.map Prod.fst := (lookupA_eq_none_iff dist t).mp hcur
      have ht_ne_u : t ≠ u := by
        intro h
        rw [h, inv.u_dist] at hcur
        exact Option.noConfusion hcur
      have ht_ne_start : t ≠ start := by
        intro h
        rw [h, inv.core.start_dist] at hcur
        exact Option.noConfusion hcur
      have ht_not_S : t ∉ S := by
        intro hS
        obtain ⟨dv, hdv, _, _⟩ := inv.settled t hS
        rw [hdv] at hcur
        exact Option.noConfusion hcur
      rw [hstep]
      exact relax_update_case hw inv htw hw0 ht_ne_u ht_ne_start ht_not_S
        (Or.inl hcur)
    · have hnb : ¬ (k + w < cur) := himp cur hcur
      have hstep : relaxStep u k (dist, prev, heap) (t, w) = (dist, prev, heap) := by
        unfold relaxStep
        rw [hcur]
        simp [hnb]
      rw [hstep]
      refine ⟨⟨inv.core, inv.u_dist, inv.k_nonneg, inv.hdom, inv.frontier, inv.settled, ?_⟩,
        by show heap.length ≤ heap.length + 1; omega⟩
      intro tw' htw'
      rcases List.mem_append.mp htw' with h | h
      · exact inv.processed_closed tw' h
      · rw [List.mem_singleton] at h
        subst h
        exact ⟨cur, hcur, not_lt.mp hnb⟩
  · push_neg at himp
    obtain ⟨cur, hcur, hlt⟩ := himp
    have hstep : relaxStep u k (dist, prev, heap) (t, w) =
        (upsertA dist t (k + w), upsertA prev t u, (k + w, t) :: heap) := by
      unfold relaxStep
      rw [hcur]
      simp [hlt]
    have ht_ne_u : t ≠ u := by
      intro h
      rw [h, inv.u_dist] at hcur
      rw [Option.some.injEq] at hcur
      subst hcur
      linarith
    have ht_ne_start : t ≠ start := by
      intro h
      rw [h, inv.core.start_dist] at hcur
      rw [Option.some.injEq] at hcur
      subst hcur
      linarith [inv.k_nonneg]
    have ht_not_S : t ∉ S := by
      intro hS
      obtain ⟨dv, hdv, hdvk, _⟩ := inv.settled t hS
      rw [hcur] at hdv
      rw [Option.some.injEq] at hdv
      subst hdv
      linarith
    rw [hstep]
    exact relax_update_case hw inv htw hw0 ht_ne_u ht_ne_start ht_not_S
      (Or.inr ⟨cur, hcur, hlt⟩)

theorem relax_fold {g : TransitGraph} {start u : Station} {k : ℚ}
    {S : Finset Station} (hw : NonnegWeights g) :
    ∀ (ns : List (Station × ℚ))
      (st : List (Station × ℚ) × List (Station × Station) × List (ℚ × Station))
      (processed : List (Station × ℚ)),
      RInv g start u k S st processed →
      (∀ tw ∈ ns, tw ∈ nbrs g u) →
      RInv g start u k S (ns.foldl (relaxStep u k) st) (processed ++ ns) ∧
        (ns.foldl (relaxStep u k) st).2.2.length ≤ st.2.2.length + ns.length := by
  intro ns
  induction ns with
  | nil =>
    intro st processed hinv _
    simpa using hinv
  | cons tw ns ih =>
    intro st processed hinv hsub
    obtain ⟨dist, prev, heap⟩ := st
    obtain ⟨hinv', hlen'⟩ :=
      relaxStep_maintains hw hinv (hsub tw (List.mem_cons_self _ _))
    obtain ⟨hinv'', hlen''⟩ := ih (relaxStep u k (dist, prev, heap) tw)
      (processed ++ [tw]) hinv' (fun tw' htw' => hsub tw' (List.mem_cons_of_mem _ htw'))
    refine ⟨?_, ?_⟩
    · simp only [List.foldl_cons]
      have happ : (processed ++ [tw]) ++ ns = processed ++ tw :: ns := by simp
      rwa [happ] at hinv''
    · simp only [List.foldl_cons]
      simp only [List.length_cons]
      omega

/-- Termination potential of the Dijkstra loop: live heap entries plus, for
every unsettled station of the universe, the pops its pushes can cause. -/
def dPotential (g : TransitGraph) (start : Station) (heap : List (ℚ × Station))
    (S : Finset Station) : Nat :=
  heap.length + ((stationUniverse g start).toFinset \ S).sum
    (fun v => 1 + (nbrs g v).length)

theorem stale_inv {g : TransitGraph} {start endS u : Station} {k b : ℚ}
    {dist : List (Station × ℚ)} {prev : List (Station × Station)}
    {heap heap' : List (ℚ × Station)} {S : Finset Station}
    (inv : DInv g start endS dist prev heap S b)
    (hperm : heap.Perm ((k, u) :: heap'))
    (hmin : ∀ x ∈ heap, k ≤ x.1) (hbk : b ≤ k) (huS : u ∈ S) :
    DInv g start endS dist prev heap' S k := by
  refine ⟨inv.core, ?_, le_trans inv.b_nonneg hbk, ?_, ?_, inv.endS_not⟩
  · intro kv hkv
    have hkv_heap : kv ∈ heap := hperm.mem_iff.mpr (List.mem_cons_of_mem _ hkv)
    obtain ⟨dv, hdv, h1, _⟩ := inv.hdom kv hkv_heap
    exact ⟨dv, hdv, h1, hmin kv hkv_heap⟩
  · intro v dv hdv
    rcases inv.frontier v dv hdv with h | h
    · rcases List.mem_cons.mp (hperm.mem_iff.mp h) with heq | h'
      · rw [Prod.mk.injEq] at heq
        exact Or.inr (heq.2 ▸ huS)
      · exact Or.inl h'
    · exact Or.inr h
  · intro v hv
    obtain ⟨dv, h1, h2, h3⟩ := inv.settled v hv
    exact ⟨dv, h1, le_trans h2 hbk, h3⟩

theorem fresh_inv {g : TransitGraph} {start endS u : Station} {k b du : ℚ}
    {dist : List (Station × ℚ)} {prev : List (Station × Station)}
    {heap heap' : List (ℚ × Station)} {S : Finset Station}
    (hw : NonnegWeights g)
    (inv : DInv g start endS dist prev heap S b)
    (hperm : heap.Perm ((k, u) :: heap'))
    (hmin : ∀ x ∈ heap, k ≤ x.1) (hbk : b ≤ k)
    (hdu : lookupA dist u = some du) (hduk : du ≤ k)
    (huS : u ∉ S) (hu_end : u ≠ endS) :
    DInv g start endS (relax u k (dist, prev, heap') (nbrs g u)).1
      (relax u k (dist, prev, heap') (nbrs g u)).2.1
      (relax u k (dist, prev, heap') (nbrs g u)).2.2 (insert u S) k ∧
    (relax u k (dist, prev, heap') (nbrs g u)).2.2.length ≤
      heap'.length + (nbrs g u).length := by
  have hfresh : (du, u) ∈ heap := by
    rcases inv.frontier u du hdu with h | h
    · exact h
    · exact absurd h huS
  have hkdu : k = du := le_antisymm (hmin (du, u) hfresh) hduk
  have hdu' : lookupA dist u = some k := by rw [hkdu]; exact hdu
  have hk0 : 0 ≤ k := le_trans inv.b_nonneg hbk
  have hentry : RInv g start u k S (dist, prev, heap') [] := by
    refine ⟨inv.core, hdu', hk0, ?_, ?_, ?_, ?_⟩
    · intro kv hkv
      have hkv_heap : kv ∈ heap := hperm.mem_iff.mpr (List.mem_cons_of_mem _ hkv)
      obtain ⟨dv, hdv, h1, _⟩ := inv.hdom kv hkv_heap
      exact ⟨dv, hdv, h1, hmin kv hkv_heap⟩
    · intro v dv hdv
      rcases inv.frontier v dv hdv with h | h
      · rcases List.mem_cons.mp (hperm.mem_iff.mp h) with heq | h'
        · rw [Prod.mk.injEq] at heq
          exact Or.inr (Finset.mem_insert.mpr (Or.inl heq.2))
        · exact Or.inl h'
      · exact Or.inr (Finset.mem_insert.mpr (Or.inr h))
    · intro v hv
      obtain ⟨dv, h1, h2, h3⟩ := inv.settled v hv
      exact ⟨dv, h1, le_trans h2 hbk, h3⟩
    · intro tw htw
      exact absurd htw (by simp)
  obtain ⟨hfin, hlen⟩ :=
    relax_fold hw (nbrs g u) (dist, prev, heap') [] hentry (fun tw htw => htw)
  rw [List.nil_append] at hfin
  refine ⟨⟨hfin.core, hfin.hdom, hk0, hfin.frontier, ?_, ?_⟩, hlen⟩
  · intro v hv
    rcases Finset.mem_insert.mp hv with rfl | hv'
    · exact ⟨k, hfin.u_dist, le_refl k, fun tw htw => hfin.processed_closed tw htw⟩
    · exact hfin.settled v hv'
  · intro hmem
    rcases Finset.mem_insert.mp hmem with h | h
    · exact hu_end h.symm
    · exact inv.endS_not h

theorem dijkstraLoop_sound (g : TransitGraph) (start endS : Station)
    (hw : NonnegWeights g) :
    ∀ (fuel : Nat) (dist : List (Station × ℚ)) (prev : List (Station × Station))
      (heap : List (ℚ × Station)) (S : Finset Station) (b : ℚ),
      DInv g start endS dist prev heap S b →
      dPotential g start heap S < fuel →
      (dijkstraLoop g endS fuel dist prev heap = none →
        ∀ l c, ¬ PathList g start endS l c) ∧
      (∀ d p, dijkstraLoop g endS fuel dist prev heap = some (d, p) →
        PathList g start endS p d ∧ (∀ q e, PathList g start endS q e → d ≤ e) ∧
        p.head? = some start ∧ p.getLast? = some endS) := by
  intro fuel
  induction fuel with
  | zero =>
    intro dist prev heap S b _ hpot
    exact absurd hpot (by omega)
  | succ fuel ih =>
    intro dist prev heap S b inv hpot
    have hset : ∀ v ∈ S, ∃ dv, lookupA dist v = some dv ∧
        ∀ tw ∈ nbrs g v, ∃ dt, lookupA dist tw.1 = some dt ∧ dt ≤ dv + tw.2 := by
      intro v hv
      obtain ⟨dv, h1, _, h3⟩ := inv.settled v hv
      exact ⟨dv, h1, h3⟩
    rcases hpop : popMin heap with _ | p
    · -- heap exhausted: `endS` is unreachable
      rw [popMin_eq_none] at hpop
      subst hpop
      constructor
      · intro _ l c hpath
        rcases frontier_path hw inv.frontier hset hpath 0 0 inv.core.start_dist
            (le_refl 0) with ⟨dz, hdz, _⟩ | ⟨ky, y, hy, _⟩
        · rcases inv.frontier endS dz hdz with h | h
          · exact absurd h (by simp)
          · exact inv.endS_not h
        · exact absurd hy (by simp)
      · intro d p hsome
        rw [show dijkstraLoop g endS (fuel + 1) dist prev [] = none from by
          simp [dijkstraLoop, popMin]] at hsome
        exact Option.noConfusion hsome
    · obtain ⟨⟨k, u⟩, heap'⟩ := p
      have hmem : (k, u) ∈ heap := popMin_mem hpop
      have hmin : ∀ x ∈ heap, k ≤ x.1 := popMin_min hpop
      have hperm : heap.Perm ((k, u) :: heap') := popMin_perm hpop
      obtain ⟨du, hdu, hduk, hbk⟩ := inv.hdom (k, u) hmem
      have hlen_eq : heap.length = heap'.length + 1 := by
        have := hperm.length_eq
        simpa using this
      by_cases hu_end : u = endS
      · -- the target is popped: return
        subst hu_end
        have hfresh : (du, u) ∈ heap := by
          rcases inv.frontier u du hdu with h | h
          · exact h
          · exact absurd h inv.endS_not
        have hkdu : k = du := le_antisymm (hmin (du, u) hfresh) hduk
        have hmemkeys : u ∈ dist.map Prod.fst :=
          (lookupA_isSome_iff dist u).mp (by rw [hdu]; rfl)
        obtain ⟨l, hseg⟩ := inv.core.chains u hmemkeys
        have hrec := Seg.reconstruct inv.core.start_noprev hseg prev.length
          (Seg.length_le inv.core.start_noprev inv.core.prev_nodup hseg) []
        obtain ⟨c, dv, hpath, hdv, hcle⟩ :=
          seg_pathlist inv.core.start_dist inv.core.links hseg
        have hdvdu : du = dv := by
          rw [hdu] at hdv
          exact Option.some.inj hdv
        have hopt : ∀ q e, PathList g start u q e → k ≤ e := by
          intro q e hq
          rcases frontier_path hw inv.frontier hset hq 0 0 inv.core.start_dist
              (le_refl 0) with ⟨dz, hdz, hdzle⟩ | ⟨ky, y, hy, hyle⟩
          · have : du = dz := by
              rw [hdu] at hdz
              exact Option.some.inj hdz
            rw [hkdu, this]
            linarith
          · have := hmin (ky, y) hy
            simp only at this
            linarith
        have hck : c = k := by
          have h1 : c ≤ k := by rw [hkdu, hdvdu]; exact hcle
          exact le_antisymm h1 (hopt _ _ hpath)
        have hres : dijkstraLoop g u (fuel + 1) dist prev heap =
            some (k, reconstructPath prev prev.length u []) := by
          simp [dijkstraLoop, hpop]
        constructor
        · intro hnone
          rw [hres] at hnone
          exact absurd hnone (by simp)
        · intro d p hsome
          rw [hres] at hsome
          rw [Option.some.injEq, Prod.mk.injEq] at hsome
          obtain ⟨rfl, rfl⟩ := hsome
          rw [List.append_nil] at hrec
          rw [hrec]
          exact ⟨hck ▸ hpath, hopt, rfl, PathList.last_eq hpath⟩
      · -- continue: relax and recurse
        have hres : dijkstraLoop g endS (fuel + 1) dist prev heap =
            dijkstraLoop g endS fuel (relax u k (dist, prev, heap') (nbrs g u)).1
              (relax u k (dist, prev, heap') (nbrs g u)).2.1
              (relax u k (dist, prev, heap') (nbrs g u)).2.2 := by
          rcases hget : g.get u with _ | ns
          · have hn : nbrs g u = [] := by unfold nbrs; rw [hget]; rfl
            simp [dijkstraLoop, hpop, hu_end, hget, hn, relax]
          · have hn : nbrs g u = ns := by unfold nbrs; rw [hget]; rfl
            simp [dijkstraLoop, hpop, hu_end, hget, hn, relax]
        by_cases huS : u ∈ S
        · -- stale pop: no state change
          obtain ⟨du_s, hdu_s, hdub, hclose⟩ := inv.settled u huS
          have hnoop : relax u k (dist, prev, heap') (nbrs g u) =
              (dist, prev, heap') := by
            apply relax_noop
            intro tw htw
            obtain ⟨dt, hdt, hle⟩ := hclose tw htw
            refine ⟨dt, hdt, ?_⟩
            have : du_s ≤ k := le_trans hdub hbk
            have hw0 : 0 ≤ tw.2 := nbrs_weight_nonneg hw htw
            linarith
          rw [hres, hnoop]
          have inv' : DInv g start endS dist prev heap' S k :=
            stale_inv inv hperm hmin hbk huS
          apply ih dist prev heap' S k inv'
          unfold dPotential at hpot ⊢
          omega
        · -- fresh pop: relax the adjacency list, settle `u`
          obtain ⟨inv', hlen'⟩ :=
            fresh_inv hw inv hperm hmin hbk hdu hduk huS hu_end
          rw [hres]
          apply ih _ _ _ (insert u S) k inv'
          -- the potential strictly decreases
          have hu_univ : u ∈ (stationUniverse g start).toFinset := by
            rw [List.mem_toFinset]
            exact inv.core.keys_sub u ((lookupA_isSome_iff dist u).mp (by rw [hdu]; rfl))
          have hu_sdiff : u ∈ (stationUniverse g start).toFinset \ S :=
            Finset.mem_sdiff.mpr ⟨hu_univ, huS⟩
          have hsetid : (stationUniverse g start).toFinset \ insert u S =
              ((stationUniverse g start).toFinset \ S).erase u := by
            ext x
            simp only [Finset.mem_sdiff, Finset.mem_erase, Finset.mem_insert]
            tauto
          have hsum := Finset.sum_erase_add ((stationUniverse g start).toFinset \ S)
            (fun v => 1 + (nbrs g v).length) hu_sdiff
          have hsum2 : (((stationUniverse g start).toFinset \ S).erase u).sum
                (fun v => 1 + (nbrs g v).length) + (1 + (nbrs g u).length) =
              ((stationUniverse g start).toFinset \ S).sum
                (fun v => 1 + (nbrs g v).length) := by
            simpa using hsum
          unfold dPotential at hpot ⊢
          rw [hsetid]
          omega

theorem list_sum_eq_toFinset_sum (f : Station → Nat) :
    ∀ (l : List Station), l.Nodup → l.toFinset.sum f = (l.map f).sum := by
  intro l
  induction l with
  | nil => intro _; simp
  | cons x xs ih =>
    intro hnd
    rw [List.nodup_cons] at hnd
    rw [List.toFinset_cons, Finset.sum_insert (by
      rw [List.mem_toFinset]
      exact hnd.1)]
    rw [List.map_cons, List.sum_cons, ih hnd.2]

theorem shortest_path_spec (g : TransitGraph) (hw : NonnegWeights g)
    (start endS : Station) :
    (g.shortest_path start endS = none → ∀ l c, ¬ PathList g start endS l c) ∧
    (∀ d p, g.shortest_path start endS = some (d, p) →
      PathList g start endS p d ∧ (∀ q e, PathList g start endS q e → d ≤ e) ∧
      p.head? = some start ∧ p.getLast? = some endS) := by
  have hinv : DInv g start endS [(start, 0)] [] [(0, start)] ∅ 0 := by
    refine ⟨⟨by simp, by simp, by simp [lookupA], rfl, ?_, ?_, ?_⟩, ?_, le_refl 0,
      ?_, ?_, ?_⟩
    · intro v u h
      exact absurd h (by simp [lookupA])
    · intro v hv
      simp only [List.map_cons, List.map_nil, List.mem_singleton] at hv
      subst hv
      exact ⟨[], Seg.refl⟩
    · intro v hv
      simp only [List.map_cons, List.map_nil, List.mem_singleton] at hv
      subst hv
      exact start_mem_stationUniverse g v
    · intro kv hkv
      rw [List.mem_singleton] at hkv
      subst hkv
      exact ⟨0, by simp [lookupA], le_refl 0, le_refl 0⟩
    · intro v dv h
      unfold lookupA at h
      by_cases hv : start = v
      · rw [if_pos hv] at h
        rw [Option.some.injEq] at h
        subst hv
        subst h
        exact Or.inl (List.mem_singleton.mpr rfl)
      · rw [if_neg hv] at h
        exact absurd h (by simp [lookupA])
    · intro v hv
      exact absurd hv (Finset.not_mem_empty v)
    · exact Finset.not_mem_empty endS
  have hpot : dPotential g start [(0, start)] ∅ < dijkstraFuel g start := by
    unfold dPotential dijkstraFuel
    rw [Finset.sdiff_empty]
    rw [list_sum_eq_toFinset_sum (fun v => 1 + (nbrs g v).length)
      (stationUniverse g start) (nodup_stationUniverse g start)]
    simp only [List.length_singleton]
    omega
  exact dijkstraLoop_sound g start endS hw (dijkstraFuel g start)
    [(start, 0)] [] [(0, start)] ∅ 0 hinv hpot

theorem dijkstraLoop_self (g : TransitGraph) (a : Station) (n : Nat) :
    dijkstraLoop g a (n + 1) [(a, 0)] [] [(0, a)] = some (0, [a]) := by
  simp [dijkstraLoop, popMin, reconstructPath]

theorem shortest_path_self (g : TransitGraph) (a : Station) :
    g.shortest_path a a = some (0, [a]) := by
  unfold TransitGraph.shortest_path
  have h : dijkstraFuel g a = (dijkstraFuel g a - 1) + 1 := by
    unfold dijkstraFuel
    omega
  rw [h]
  exact dijkstraLoop_self g a _

/-- The delays accumulated by `closeness_centrality(s)`: for each key station
of the adjacency map other than `s`, the total delay of `shortest_path(s, ·)`
when one exists, in map order. -/
def closenessDelays (g : TransitGraph) (s : Station) : List ℚ :=
  g.nodes.filterMap (fun p =>
    if p.1 = s then none
    else (g.shortest_path s p.1).map Prod.fst)

/-- The key stations (stations with at least one outgoing edge) other than `s`
that `shortest_path` can reach from `s`: exactly the stations
`closeness_centrality(s)` counts. -/
def reachableKeys (g : TransitGraph) (s : Station) : List Station :=
  (g.nodes.map Prod.fst).filter (fun k => decide (k ≠ s) && (g.shortest_path s k).isSome)

theorem closenessDelays_eq_map (g : TransitGraph) (s : Station) :
    closenessDelays g s =
      (reachableKeys g s).map
        (fun k => ((g.shortest_path s k).map Prod.fst).getD 0) := by
  unfold closenessDelays reachableKeys
  induction g.nodes with
  | nil => simp
  | cons p ps ih =>
    by_cases hps : p.1 = s
    · simpa [hps] using ih
    · rcases hsp : g.shortest_path s p.1 with _ | dp
      · simpa [hps, hsp] using ih
      · simpa [hps, hsp] using ih

theorem closeness_fold (g : TransitGraph) (s : Station) :
    ∀ (ns : List (Station × List (Station × ℚ))) (acc : ℚ × Nat),
      ns.foldl
        (fun (acc : ℚ × Nat) p =>
          if p.1 = s then acc
          else
            match g.shortest_path s p.1 with
            | some dp => (acc.1 + dp.1, acc.2 + 1)
            | none => acc)
        acc =
      (acc.1 + (ns.filterMap (fun p =>
          if p.1 = s then none
          else (g.shortest_path s p.1).map Prod.fst)).sum,
        acc.2 + (ns.filterMap (fun p =>
          if p.1 = s then none
          else (g.shortest_path s p.1).map Prod.fst)).length) := by
  intro ns
  induction ns with
  | nil => intro acc; simp
  | cons p ps ih =>
    intro acc
    by_cases hps : p.1 = s
    · simp only [List.foldl_cons, List.filterMap_cons, if_pos hps]
      exact ih acc
    · rcases hsp : g.shortest_path s p.1 with _ | dp
      · simp only [List.foldl_cons, List.filterMap_cons, if_neg hps, hsp]
        exact ih acc
      · simp only [List.foldl_cons, List.filterMap_cons, if_neg hps, hsp,
          Option.map_some']
        rw [ih (acc.1 + dp.1, acc.2 + 1)]
        simp only [List.sum_cons, List.length_cons]
        rw [Prod.mk.injEq]
        constructor
        · ring_nf
        · omega

theorem closeness_eq (g : TransitGraph) (s : Station) :
    g.closeness_centrality s =
      if (closenessDelays g s).sum = 0 ∨ (closenessDelays g s).length = 0 then none
      else some (((closenessDelays g s).length : ℚ) / (closenessDelays g s).sum) := by
  unfold TransitGraph.closeness_centrality closenessDelays
  rw [closeness_fold g s g.nodes (0, 0)]
  simp only [zero_add]

theorem centralityUpdate_keys (s w : Station) (delta' : List (Station × ℚ))
    (centrality : List (Station × ℚ)) :
    (centralityUpdate s w delta' centrality).map Prod.fst =
      centrality.map Prod.fst := by
  unfold centralityUpdate
  by_cases hws : w ≠ s
  · rw [if_pos hws]
    by_cases hc : (0 : ℚ) ≤ (lookupA delta' w).getD 0
    · simp only [if_pos hc]
      exact keys_modifyA centrality w _
    · simp [if_neg hc]
  · simp [if_neg hws]

theorem centralityUpdate_nonneg (s w : Station) (delta' : List (Station × ℚ))
    {centrality : List (Station × ℚ)} (h : ∀ p ∈ centrality, (0 : ℚ) ≤ p.2) :
    ∀ p ∈ centralityUpdate s w delta' centrality, (0 : ℚ) ≤ p.2 := by
  unfold centralityUpdate
  by_cases hws : w ≠ s
  · rw [if_pos hws]
    by_cases hc : (0 : ℚ) ≤ (lookupA delta' w).getD 0
    · simp only [if_pos hc]
      intro p hp
      obtain ⟨q, hq, _, hval⟩ := mem_modifyA centrality w _ p hp
      rcases hval with hval | hval
      · exact hval ▸ h q hq
      · rw [hval]
        have := h q hq
        linarith
    · simp only [if_neg hc]
      exact h
  · simp only [if_neg hws]
    exact h

theorem accumLoop_preserves (s : Station) :
    ∀ (stack : List Station) (preds : List (Station × List Station))
      (sigma delta centrality : List (Station × ℚ)),
      (∀ p ∈ centrality, (0 : ℚ) ≤ p.2) →
      (accumLoop s stack preds sigma delta centrality).map Prod.fst =
          centrality.map Prod.fst ∧
        ∀ p ∈ accumLoop s stack preds sigma delta centrality, (0 : ℚ) ≤ p.2 := by
  intro stack
  induction stack with
  | nil =>
    intro preds sigma delta centrality h
    exact ⟨rfl, h⟩
  | cons w rest ih =>
    intro preds sigma delta centrality h
    simp only [accumLoop]
    obtain ⟨hkeys, hvals⟩ := ih preds sigma (accumDelta preds sigma w delta)
      (centralityUpdate s w (accumDelta preds sigma w delta) centrality)
      (centralityUpdate_nonneg s w _ h)
    exact ⟨hkeys.trans (centralityUpdate_keys s w _ centrality), hvals⟩

theorem betweennessSource_preserves (g : TransitGraph) (all : List Station)
    {centrality : List (Station × ℚ)} (h : ∀ p ∈ centrality, (0 : ℚ) ≤ p.2)
    (s : Station) :
    (betweennessSource g all centrality s).map Prod.fst = centrality.map Prod.fst ∧
      ∀ p ∈ betweennessSource g all centrality s, (0 : ℚ) ≤ p.2 := by
  unfold betweennessSource
  exact accumLoop_preserves s _ _ _ _ centrality h

theorem betweennessFold_preserves (g : TransitGraph) (all : List Station) :
    ∀ (srcs : List Station) (centrality : List (Station × ℚ)),
      (∀ p ∈ centrality, (0 : ℚ) ≤ p.2) →
      (srcs.foldl (betweennessSource g all) centrality).map Prod.fst =
          centrality.map Prod.fst ∧
        ∀ p ∈ srcs.foldl (betweennessSource g all) centrality, (0 : ℚ) ≤ p.2 := by
  intro srcs
  induction srcs with
  | nil => intro centrality h; exact ⟨rfl, h⟩
  | cons s srcs ih =>
    intro centrality h
    simp only [List.foldl_cons]
    obtain ⟨hk1, hv1⟩ := betweennessSource_preserves g all h s
    obtain ⟨hk2, hv2⟩ := ih (betweennessSource g all centrality s) hv1
    exact ⟨hk2.trans hk1, hv2⟩

theorem betweenness_spec (g : TransitGraph) :
    (g.betweenness_centrality.map Prod.fst = g.all_stations) ∧
      ∀ p ∈ g.betweenness_centrality, (0 : ℚ) ≤ p.2 := by
  unfold TransitGraph.betweenness_centrality
  obtain ⟨hk, hv⟩ := betweennessFold_preserves g g.all_stations g.all_stations
    (g.all_stations.map (fun v => (v, (0 : ℚ)))) (by simp)
  refine ⟨?_, hv⟩
  rw [hk, List.map_map]
  have hfun : (Prod.fst ∘ fun v : Station => (v, (0 : ℚ))) = id := by
    funext x
    rfl
  rw [hfun, List.map_id]

/-- Every directed edge of the graph with its ordered station pair, flattened
in adjacency order. -/
def routeEdges (g : TransitGraph) : List ((Station × Station) × ℚ) :=
  g.nodes.flatMap (fun p => p.2.map (fun td => ((p.1, td.1), td.2)))

/-- The total delay over all parallel edges of one ordered pair. -/
def routeSum (g : TransitGraph) (key : Station × Station) : ℚ :=
  (((routeEdges g).filter (fun e => decide (e.1 = key))).map (fun e => e.2)).sum

/-- The number of parallel edges of one ordered pair. -/
def routeCnt (g : TransitGraph) (key : Station × Station) : Nat :=
  ((routeEdges g).filter (fun e => decide (e.1 = key))).length

theorem lookupA_append_left {κ α : Type} [DecidableEq κ] {m1 : List (κ × α)}
    {k : κ} {v : α} (h : lookupA m1 k = some v) (m2 : List (κ × α)) :
    lookupA (m1 ++ m2) k = some v := by
  induction m1 with
  | nil => exact absurd h (by simp [lookupA])
  | cons hd tl ih =>
    obtain ⟨k0, v0⟩ := hd
    by_cases h0 : k0 = k
    · simp only [lookupA, if_pos h0] at h ⊢
      exact h
    · simp only [lookupA, if_neg h0] at h ⊢
      exact ih h

theorem lookupA_append_right {κ α : Type} [DecidableEq κ] {m1 : List (κ × α)}
    {k : κ} (h : lookupA m1 k = none) (m2 : List (κ × α)) :
    lookupA (m1 ++ m2) k = lookupA m2 k := by
  induction m1 with
  | nil => simp
  | cons hd tl ih =>
    obtain ⟨k0, v0⟩ := hd
    by_cases h0 : k0 = k
    · simp only [lookupA, if_pos h0] at h
      exact Option.noConfusion h
    · simp only [lookupA, if_neg h0] at h ⊢
      exact ih h

theorem lookupA_of_mem_nodup {κ α : Type} [DecidableEq κ] :
    ∀ {m : List (κ × α)}, (m.map Prod.fst).Nodup → ∀ {k : κ} {v : α},
      (k, v) ∈ m → lookupA m k = some v := by
  intro m
  induction m with
  | nil => intro _ k v h; exact absurd h (by simp)
  | cons hd tl ih =>
    intro hnd k v h
    obtain ⟨k0, v0⟩ := hd
    rw [List.map_cons, List.nodup_cons] at hnd
    rcases List.mem_cons.mp h with heq | hmem
    · rw [Prod.mk.injEq] at heq
      obtain ⟨rfl, rfl⟩ := heq
      simp [lookupA]
    · have hk : k0 ≠ k := by
        intro hk
        subst hk
        exact hnd.1 (List.mem_map.mpr ⟨(k0, v), hmem, rfl⟩)
      simp only [lookupA, if_neg hk]
      exact ih hnd.2 hmem

theorem foldl_flat {α β γ : Type} (f : α → List β) (step : γ → β → γ) :
    ∀ (l : List α) (init : γ),
      (l.flatMap f).foldl step init =
        l.foldl (fun acc a => (f a).foldl step acc) init := by
  intro l
  induction l with
  | nil => intro init; rfl
  | cons a l ih =>
    intro init
    rw [List.flatMap_cons, List.foldl_append, ih, List.foldl_cons]

/-- Total delay of the edges of `es` carrying the given ordered pair. -/
def keySum (es : List ((Station × Station) × ℚ)) (key : Station × Station) : ℚ :=
  ((es.filter (fun e => decide (e.1 = key))).map (fun e => e.2)).sum

/-- Number of edges of `es` carrying the given ordered pair. -/
def keyCnt (es : List ((Station × Station) × ℚ)) (key : Station × Station) : Nat :=
  (es.filter (fun e => decide (e.1 = key))).length

theorem routeStep_lookup_other {acc : List ((Station × Station) × (ℚ × Nat))}
    {e1 key : Station × Station} (hne : e1 ≠ key) (d : ℚ) :
    lookupA (routeStep acc e1 d) key = lookupA acc key := by
  unfold routeStep
  rcases hl : lookupA acc e1 with _ | tc
  · rcases hk : lookupA acc key with _ | tck
    · rw [lookupA_append_right hk]
      simp [lookupA, hne]
    · exact lookupA_append_left hk _
  · rw [lookupA_upsertA, if_neg hne]

theorem routeFold_lookup :
    ∀ (es : List ((Station × Station) × ℚ))
      (acc : List ((Station × Station) × (ℚ × Nat))) (key : Station × Station),
      lookupA (es.foldl (fun a e => routeStep a e.1 e.2) acc) key =
        match lookupA acc key with
        | some tc => some (tc.1 + keySum es key, tc.2 + keyCnt es key)
        | none =>
          if keyCnt es key = 0 then none else some (keySum es key, keyCnt es key) := by
  intro es
  induction es with
  | nil =>
    intro acc key
    rcases hacc : lookupA acc key with _ | tc
    · simp [keySum, keyCnt, hacc]
    · simp [keySum, keyCnt, hacc]
  | cons e es ih =>
    intro acc key
    simp only [List.foldl_cons]
    rw [ih (routeStep acc e.1 e.2) key]
    by_cases hek : e.1 = key
    · have hsum : keySum (e :: es) key = e.2 + keySum es key := by
        simp [keySum, hek]
      have hcnt : keyCnt (e :: es) key = 1 + keyCnt es key := by
        simp [keyCnt, hek]
        omega
      rcases hacc : lookupA acc key with _ | tc
      · have hacc' : lookupA acc e.1 = none := by rw [hek]; exact hacc
        have hstep : lookupA (routeStep acc e.1 e.2) key = some (e.2, 1) := by
          unfold routeStep
          rw [hacc']
          rw [lookupA_append_right hacc]
          simp [lookupA, hek]
        simp only [hstep, hacc, hsum, hcnt]
        have h1 : ¬ (1 + keyCnt es key = 0) := by omega
        simp [h1]
      · have hacc' : lookupA acc e.1 = some tc := by rw [hek]; exact hacc
        have hstep : lookupA (routeStep acc e.1 e.2) key =
            some (tc.1 + e.2, tc.2 + 1) := by
          unfold routeStep
          rw [hacc']
          rw [lookupA_upsertA, if_pos hek]
        simp only [hstep, hacc, hsum, hcnt]
        rw [Option.some.injEq, Prod.mk.injEq]
        constructor
        · ring
        · omega
    · have hsum : keySum (e :: es) key = keySum es key := by
        simp [keySum, hek]
      have hcnt : keyCnt (e :: es) key = keyCnt es key := by
        simp [keyCnt, hek]
      simp only [routeStep_lookup_other hek, hsum, hcnt]

theorem routeFold_nodup :
    ∀ (es : List ((Station × Station) × ℚ))
      (acc : List ((Station × Station) × (ℚ × Nat))),
      (acc.map Prod.fst).Nodup →
      ((es.foldl (fun a e => routeStep a e.1 e.2) acc).map Prod.fst).Nodup := by
  intro es
  induction es with
  | nil => intro acc h; simpa using h
  | cons e es ih =>
    intro acc h
    simp only [List.foldl_cons]
    apply ih
    unfold routeStep
    rcases hl : lookupA acc e.1 with _ | tc
    · rw [List.map_append]
      refine List.Nodup.append h (by simp) ?_
      intro x hx hx'
      simp only [List.map_cons, List.map_nil, List.mem_singleton] at hx'
      subst hx'
      exact (lookupA_eq_none_iff acc e.1).mp hl hx
    · exact nodup_keys_upsertA h e.1 _

theorem routeSum_eq_keySum (g : TransitGraph) (key : Station × Station) :
    routeSum g key = keySum (routeEdges g) key := rfl

theorem routeCnt_eq_keyCnt (g : TransitGraph) (key : Station × Station) :
    routeCnt g key = keyCnt (routeEdges g) key := rfl

theorem routes_fold_flat (g : TransitGraph) :
    g.nodes.foldl
        (fun acc p => p.2.foldl (fun acc2 td => routeStep acc2 (p.1, td.1) td.2) acc)
        [] =
      (routeEdges g).foldl (fun a e => routeStep a e.1 e.2) [] := by
  unfold routeEdges
  rw [foldl_flat]
  congr 1
  funext acc p
  rw [List.foldl_map]

theorem routes_lookup (g : TransitGraph) (key : Station × Station) :
    lookupA
        (g.nodes.foldl
          (fun acc p => p.2.foldl (fun acc2 td => routeStep acc2 (p.1, td.1) td.2) acc)
          []) key =
      if routeCnt g key = 0 then none
      else some (routeSum g key, routeCnt g key) := by
  rw [routes_fold_flat, routeFold_lookup (routeEdges g) [] key]
  rfl

theorem get_route_average_delays_spec (g : TransitGraph) :
    ((g.get_route_average_delays).map Prod.fst).Nodup ∧
    (∀ r ∈ g.get_route_average_delays,
      r.2.2 = routeCnt g r.1 ∧ 0 < r.2.2 ∧ r.2.1 = routeSum g r.1 / (r.2.2 : ℚ)) ∧
    (∀ ab : Station × Station, 0 < routeCnt g ab →
      ∃ r ∈ g.get_route_average_delays, r.1 = ab) := by
  have hnodup : ((g.nodes.foldl
      (fun acc p => p.2.foldl (fun acc2 td => routeStep acc2 (p.1, td.1) td.2) acc)
      []).map Prod.fst).Nodup := by
    rw [routes_fold_flat]
    exact routeFold_nodup (routeEdges g) [] (by simp)
  refine ⟨?_, ?_, ?_⟩
  · unfold TransitGraph.get_route_average_delays
    rw [List.map_map]
    have hfun : (Prod.fst ∘ fun x : (Station × Station) × (ℚ × Nat) =>
        (x.1, x.2.1 / (x.2.2 : ℚ), x.2.2)) = Prod.fst := by
      funext x
      rfl
    rw [hfun]
    exact hnodup
  · intro r hr
    unfold TransitGraph.get_route_average_delays at hr
    rw [List.mem_map] at hr
    obtain ⟨x, hx, rfl⟩ := hr
    have hlook := lookupA_of_mem_nodup hnodup hx
    rw [routes_lookup g x.1] at hlook
    by_cases hc : routeCnt g x.1 = 0
    · rw [if_pos hc] at hlook
      exact Option.noConfusion hlook
    · rw [if_neg hc] at hlook
      rw [Option.some.injEq] at hlook
      refine ⟨?_, ?_, ?_⟩
      · rw [← hlook]
      · rw [← hlook]
        show 0 < routeCnt g x.1
        omega
      · rw [← hlook]
  · intro ab hab
    have hlook : lookupA
        (g.nodes.foldl
          (fun acc p => p.2.foldl (fun acc2 td => routeStep acc2 (p.1, td.1) td.2) acc)
          []) ab = some (routeSum g ab, routeCnt g ab) := by
      rw [routes_lookup g ab, if_neg (by omega)]
    have hmem := lookupA_mem hlook
    unfold TransitGraph.get_route_average_delays
    refine ⟨(ab, routeSum g ab / (routeCnt g ab : ℚ), routeCnt g ab), ?_, rfl⟩
    rw [List.mem_map]
    exact ⟨(ab, (routeSum g ab, routeCnt g ab)), hmem, rfl⟩

theorem rank_routes_by_average_delay_spec (g : TransitGraph) :
    (g.rank_routes_by_average_delay).Perm
        ((g.get_route_average_delays).filter (fun r => 5 ≤ r.2.2)) ∧
      (g.rank_routes_by_average_delay).Chain' rankDescRel := by
  constructor
  · exact List.perm_insertionSort rankDescRel _
  · exact (List.sorted_insertionSort rankDescRel _).chain'

theorem rank_routes_by_lowest_delay_spec (g : TransitGraph) :
    (g.rank_routes_by_lowest_delay).Perm
        ((g.get_route_average_delays).filter (fun r => 5 ≤ r.2.2)) ∧
      (g.rank_routes_by_lowest_delay).Chain' rankAscRel := by
  constructor
  · exact List.perm_insertionSort rankAscRel _
  · exact (List.sorted_insertionSort rankAscRel _).chain'

theorem lookupA_insertEdge (m : List (Station × List (Station × ℚ))) (f : Station)
    (e : Station × ℚ) (s : Station) :
    lookupA (insertEdge m f e) s =
      if f = s then some ((lookupA m s).getD [] ++ [e]) else lookupA m s := by
  induction m with
  | nil =>
    by_cases hfs : f = s
    · simp [insertEdge, lookupA, hfs]
    · simp [insertEdge, lookupA, hfs]
  | cons hd tl ih =>
    obtain ⟨k, es⟩ := hd
    by_cases hkf : k = f
    · subst hkf
      by_cases hks : k = s
      · subst hks
        simp [insertEdge, lookupA]
      · simp [insertEdge, lookupA, hks]
    · by_cases hks : k = s
      · subst hks
        have hfs : ¬ f = k := fun h => hkf h.symm
        simp [insertEdge, lookupA, hkf, hfs]
      · simp [insertEdge, lookupA, hkf, hks, ih]

/-- The edges that the records with origin `s` and a present delay contribute,
in input order. -/
def recordEdges (records : List TrainRecord) (s : Station) : List (Station × ℚ) :=
  (records.filter (fun r => r.delay_minutes.isSome && decide (r.«from» = s))).map
    (fun r => (r.«to», r.delay_minutes.getD 0))

theorem buildNodes_lookup :
    ∀ (records : List TrainRecord) (acc : List (Station × List (Station × ℚ)))
      (s : Station),
      lookupA
          (records.foldl
            (fun nodes r =>
              match r.delay_minutes with
              | none => nodes
              | some delay => insertEdge nodes r.«from» (r.«to», delay))
            acc) s =
        match lookupA acc s with
        | some es => some (es ++ recordEdges records s)
        | none =>
          if recordEdges records s = [] then none else some (recordEdges records s) := by
  intro records
  induction records with
  | nil =>
    intro acc s
    rcases hacc : lookupA acc s with _ | es
    · simp [recordEdges, hacc]
    · simp [recordEdges, hacc]
  | cons r rs ih =>
    intro acc s
    simp only [List.foldl_cons]
    rcases hd : r.delay_minutes with _ | d
    · have hrec : recordEdges (r :: rs) s = recordEdges rs s := by
        unfold recordEdges
        rw [List.filter_cons]
        simp [hd]
      rw [hrec]
      exact ih acc s
    · by_cases hfs : r.«from» = s
      · have hrec : recordEdges (r :: rs) s =
            (r.«to», d) :: recordEdges rs s := by
          unfold recordEdges
          rw [List.filter_cons]
          simp [hd, hfs]
        rw [hrec, ih (insertEdge acc r.«from» (r.«to», d)) s]
        rw [lookupA_insertEdge, if_pos hfs]
        rcases hacc : lookupA acc s with _ | es
        · simp
        · simp
      · have hrec : recordEdges (r :: rs) s = recordEdges rs s := by
          unfold recordEdges
          rw [List.filter_cons]
          simp [hd, hfs]
        rw [hrec, ih (insertEdge acc r.«from» (r.«to», d)) s]
        rw [lookupA_insertEdge, if_neg hfs]

theorem from_records_get (records : List TrainRecord) (s : Station) :
    (TransitGraph.from_records records).get s =
      if recordEdges records s = [] then none else some (recordEdges records s) := by
  unfold TransitGraph.from_records TransitGraph.get buildNodes
  rw [buildNodes_lookup records [] s]
  rfl

/-- Spec scenario graph: A→B (2), B→C (3). -/
def exampleGraph : TransitGraph :=
  ⟨[("A", [("B", 2)]), ("B", [("C", 3)])], by decide⟩

/-- A graph with a negative delay weight, which the construction does not
validate: A→B (1), A→C (10), C→B (-100). -/
def negativeWeightGraph : TransitGraph :=
  ⟨[("A", [("B", 1), ("C", 10)]), ("C", [("B", -100)])], by decide⟩

/-- A graph with a destination-only station D: A→B (1), A→D (2), B→A (1). -/
def destOnlyGraph : TransitGraph :=
  ⟨[("A", [("B", 1), ("D", 2)]), ("B", [("A", 1)])], by decide⟩

/-- A graph whose only edge reaches a destination-only station: A→D (2). -/
def singleDestGraph : TransitGraph := ⟨[("A", [("D", 2)])], by decide⟩

/-- Spec scenario star graph: hub H to and from leaves L1, L2. -/
def starGraph : TransitGraph :=
  ⟨[("H", [("L1", 1), ("L2", 1)]), ("L1", [("H", 1)]), ("L2", [("H", 1)])],
    by decide⟩

/-- C1 as stated is false on the code: with an unvalidated negative weight,
`shortest_path` returns total delay 1 along A→B although the path A→C→B has
cumulative weight -90 < 1. -/
theorem claim_C1_counterexample :
    negativeWeightGraph.shortest_path "A" "B" = some (1, ["A", "B"]) ∧
      PathList negativeWeightGraph "A" "B" ["A", "C", "B"] (-90) ∧
      ((-90 : ℚ) < 1) := by
  refine ⟨by with_unfolding_all rfl, ?_, by norm_num⟩
  have h1 : (("C" : Station), (10 : ℚ)) ∈ nbrs negativeWeightGraph "A" := by with_unfolding_all decide
  have h2 : (("B" : Station), (-100 : ℚ)) ∈ nbrs negativeWeightGraph "C" := by with_unfolding_all decide
  have hp := PathList.cons h1 (PathList.cons h2 (PathList.single "B"))
  have harith : (10 : ℚ) + (-100 + 0) = -90 := by norm_num
  rwa [harith] at hp

/-- C1 (amended: for graphs whose delay weights are non-negative, as the
spec's data model prescribes): whenever a directed path from `a` to `b`
exists, `shortest_path(a, b)` returns `Some((d, p))` with `p` starting at `a`,
ending at `b`, consecutive elements joined by edges whose weights sum to `d`,
and no path from `a` to `b` has cumulative weight smaller than `d`. -/
theorem claim_C1 (g : TransitGraph) (a b : Station) (hw : NonnegWeights g)
    (hreach : Reach g a b) :
    ∃ d p, g.shortest_path a b = some (d, p) ∧ p.head? = some a ∧
      p.getLast? = some b ∧ PathList g a b p d ∧
      ∀ q e, PathList g a b q e → d ≤ e := by
  obtain ⟨l, c, hp⟩ := hreach
  rcases hres : g.shortest_path a b with _ | dp
  · exact absurd hp ((shortest_path_spec g hw a b).1 hres l c)
  · obtain ⟨d, p⟩ := dp
    obtain ⟨h1, h2, h3, h4⟩ := (shortest_path_spec g hw a b).2 d p hres
    exact ⟨d, p, rfl, h3, h4, h1, h2⟩

theorem claim_C1_witness :
    NonnegWeights exampleGraph ∧
      (∃ d p, exampleGraph.shortest_path "A" "C" = some (d, p) ∧
        p.head? = some "A" ∧ p.getLast? = some "C" ∧
        PathList exampleGraph "A" "C" p d ∧
        ∀ q e, PathList exampleGraph "A" "C" q e → d ≤ e) := by
  have h1 : (("B" : Station), (2 : ℚ)) ∈ nbrs exampleGraph "A" := by with_unfolding_all decide
  have h2 : (("C" : Station), (3 : ℚ)) ∈ nbrs exampleGraph "B" := by with_unfolding_all decide
  have hreach : Reach exampleGraph "A" "C" :=
    ⟨["A", "B", "C"], 2 + (3 + 0),
      PathList.cons h1 (PathList.cons h2 (PathList.single "C"))⟩
  exact ⟨by with_unfolding_all decide, claim_C1 exampleGraph "A" "C" (by with_unfolding_all decide) hreach⟩

/-- C2 as stated is false on the code: `closeness_centrality` iterates only
over the key stations of the adjacency map, so the destination-only station D
of `destOnlyGraph`, although reachable from A, is not counted.  The code
returns 1 while the spec's formula (count of all reachable stations over the
sum of their shortest-path delays) gives 2/3. -/
theorem claim_C2_counterexample :
    destOnlyGraph.closeness_centrality "A" = some 1 ∧
      ((specReachableStations destOnlyGraph "A").length : ℚ) /
          specReachableSum destOnlyGraph "A" = 2 / 3 ∧
      ¬ ((1 : ℚ) = 2 / 3) := by
  exact ⟨by with_unfolding_all rfl, by with_unfolding_all rfl, by norm_num⟩

/-- The sum of the shortest-path delays from `s` to the reachable key
stations. -/
def reachableKeyDelaySum (g : TransitGraph) (s : Station) : ℚ :=
  ((reachableKeys g s).map
    (fun k => ((g.shortest_path s k).map Prod.fst).getD 0)).sum

/-- C2 (amended: only stations with at least one outgoing edge — the keys of
the adjacency map — are counted): whenever `closeness_centrality(s)` returns
`Some(score)`, the score is the number of reachable key stations other than
`s` divided by the sum of the shortest-path delays from `s` to them. -/
theorem claim_C2 (g : TransitGraph) (s : Station) (v : ℚ)
    (h : g.closeness_centrality s = some v) :
    v = ((reachableKeys g s).length : ℚ) / reachableKeyDelaySum g s := by
  rw [closeness_eq] at h
  by_cases hc : (closenessDelays g s).sum = 0 ∨ (closenessDelays g s).length = 0
  · rw [if_pos hc] at h
    exact absurd h (by simp)
  · rw [if_neg hc] at h
    rw [Option.some.injEq] at h
    subst h
    have hlen : (closenessDelays g s).length = (reachableKeys g s).length := by
      rw [closenessDelays_eq_map]
      exact List.length_map _ _
    have hsum : (closenessDelays g s).sum = reachableKeyDelaySum g s := by
      rw [closenessDelays_eq_map]
      rfl
    rw [hlen, hsum]

theorem claim_C2_witness :
    destOnlyGraph.closeness_centrality "A" = some 1 ∧
      (1 : ℚ) = ((reachableKeys destOnlyGraph "A").length : ℚ) /
        reachableKeyDelaySum destOnlyGraph "A" :=
  ⟨by with_unfolding_all rfl, claim_C2 destOnlyGraph "A" 1 (by with_unfolding_all rfl)⟩

/-- C3 as stated is false on the code: a station absent from the graph is
claimed to make `shortest_path` return `None`, yet `shortest_path(Z, Z)` for
the absent station Z returns `Some((0.0, [Z]))`, because the start station is
seeded into the frontier and popped as the target before any membership
check. -/
theorem claim_C3_counterexample :
    ("Z" : Station) ∉ exampleGraph.all_stations ∧
      exampleGraph.shortest_path "Z" "Z" = some (0, ["Z"]) := by
  exact ⟨by with_unfolding_all decide, by with_unfolding_all rfl⟩

/-- C3 (amended: under non-negative weights, and with reachability read as
the existence of a directed path of length ≥ 0, so that every station —
present or absent — trivially reaches itself): `shortest_path(start, end)`
returns `None` exactly when no directed path from `start` to `end` exists.
For `start ≠ end` absence of either station implies unreachability, hence
`None`; for `start = end` the result is always `Some`. -/
theorem claim_C3 (g : TransitGraph) (a b : Station) (hw : NonnegWeights g) :
    g.shortest_path a b = none ↔ ¬ Reach g a b := by
  constructor
  · intro h hr
    obtain ⟨l, c, hp⟩ := hr
    exact (shortest_path_spec g hw a b).1 h l c hp
  · intro h
    rcases hres : g.shortest_path a b with _ | dp
    · rfl
    · obtain ⟨d, p⟩ := dp
      exact absurd ⟨p, d, ((shortest_path_spec g hw a b).2 d p hres).1⟩ h

theorem claim_C3_witness :
    NonnegWeights exampleGraph ∧
      (exampleGraph.shortest_path "C" "A" = none ↔ ¬ Reach exampleGraph "C" "A") :=
  ⟨by with_unfolding_all decide, claim_C3 exampleGraph "C" "A" (by with_unfolding_all decide)⟩

/-- C4: `from_records` produces, for every station `s`, exactly the edges of
the delay-carrying records whose origin is `s`, in input record order (one
edge per record, parallel edges kept, delay-less records contributing
nothing); stations with no such record have no adjacency entry. -/
theorem claim_C4 (records : List TrainRecord) (s : Station) :
    (TransitGraph.from_records records).get s =
      if recordEdges records s = [] then none
      else some (recordEdges records s) := by
  unfold TransitGraph.from_records TransitGraph.get buildNodes
  rw [buildNodes_lookup records [] s]
  rfl

/-- C5: `betweenness_centrality` returns a map whose keys are exactly the
stations of the graph (origins and destinations alike) and whose scores are
all non-negative; in the exact-rational model every score is automatically
finite, mirroring the `is_finite` guard of the source. -/
theorem claim_C5 (g : TransitGraph) :
    (g.betweenness_centrality.map Prod.fst = g.all_stations) ∧
      ∀ p ∈ g.betweenness_centrality, (0 : ℚ) ≤ p.2 :=
  betweenness_spec g

theorem claim_C5_witness :
    (("H", (2 : ℚ)) ∈ starGraph.betweenness_centrality) ∧
      (0 : ℚ) ≤ (("H", (2 : ℚ)) : Station × ℚ).2 :=
  ⟨by with_unfolding_all decide, (claim_C5 starGraph).2 ("H", 2) (by with_unfolding_all decide)⟩

/-- C6: `get_route_average_delays` has exactly one row per distinct ordered
pair with at least one edge; each row's trip count is that pair's edge count
and its average delay is the pair's total delay divided by that count. -/
theorem claim_C6 (g : TransitGraph) :
    ((g.get_route_average_delays).map Prod.fst).Nodup ∧
    (∀ r ∈ g.get_route_average_delays,
      r.2.2 = routeCnt g r.1 ∧ 0 < r.2.2 ∧ r.2.1 = routeSum g r.1 / (r.2.2 : ℚ)) ∧
    (∀ ab : Station × Station, 0 < routeCnt g ab →
      ∃ r ∈ g.get_route_average_delays, r.1 = ab) :=
  get_route_average_delays_spec g

/-- Spec scenario graph: six parallel edges A→B with weights 1,1,1,1,1,10. -/
def parallelGraph : TransitGraph :=
  ⟨[("A", [("B", 1), ("B", 1), ("B", 1), ("B", 1), ("B", 1), ("B", 10)])],
    by decide⟩

theorem claim_C6_witness :
    ((("A", "B"), (5 / 2 : ℚ), 6) ∈ parallelGraph.get_route_average_delays) ∧
      (6 = routeCnt parallelGraph ("A", "B") ∧
        0 < (((("A", "B"), (5 / 2 : ℚ), 6) :
          (Station × Station) × ℚ × Nat)).2.2 ∧
        (5 / 2 : ℚ) = routeSum parallelGraph ("A", "B") /
          ((((("A", "B"), (5 / 2 : ℚ), 6) :
            (Station × Station) × ℚ × Nat)).2.2 : ℚ)) :=
  ⟨by with_unfolding_all decide, (claim_C6 parallelGraph).2.1 (("A", "B"), (5 / 2 : ℚ), 6) (by with_unfolding_all decide)⟩

/-- C7: both route rankings consist of exactly the aggregated rows with at
least 5 trips (as a permutation of that filtered list), and are free of
adjacent-pair inversions: descending by average delay for the highest-delay
ranking and ascending for the lowest-delay ranking.  The source prints the
first `n` rows of these lists. -/
theorem claim_C7 (g : TransitGraph) :
    ((g.rank_routes_by_average_delay).Perm
        ((g.get_route_average_delays).filter (fun r => 5 ≤ r.2.2)) ∧
      (g.rank_routes_by_average_delay).Chain' rankDescRel) ∧
    ((g.rank_routes_by_lowest_delay).Perm
        ((g.get_route_average_delays).filter (fun r => 5 ≤ r.2.2)) ∧
      (g.rank_routes_by_lowest_delay).Chain' rankAscRel) :=
  ⟨rank_routes_by_average_delay_spec g, rank_routes_by_lowest_delay_spec g⟩

/-- C8 as stated is false on the code: from A the destination-only station D
is reachable with delay sum 2 ≠ 0, yet `closeness_centrality(A)` is `None`,
because only key stations (those with outgoing edges) are counted. -/
theorem claim_C8_counterexample :
    ¬ (singleDestGraph.closeness_centrality "A" = none ↔
        (specReachableStations singleDestGraph "A" = [] ∨
          specReachableSum singleDestGraph "A" = 0)) := by
  with_unfolding_all decide

/-- C8 (amended: reachability restricted to the key stations the code
iterates over): `closeness_centrality(s)` returns `None` exactly when no key
station other than `s` is reachable or the accumulated delay sum is zero, and
it never encodes either condition as `Some(0.0)`. -/
theorem claim_C8 (g : TransitGraph) (s : Station) :
    (g.closeness_centrality s = none ↔
      (reachableKeys g s = [] ∨ reachableKeyDelaySum g s = 0)) ∧
    ∀ v, g.closeness_centrality s = some v → v ≠ 0 := by
  have hlen : (closenessDelays g s).length = (reachableKeys g s).length := by
    rw [closenessDelays_eq_map]
    exact List.length_map _ _
  have hsum : (closenessDelays g s).sum = reachableKeyDelaySum g s := by
    rw [closenessDelays_eq_map]
    rfl
  constructor
  · rw [closeness_eq]
    by_cases hc : (closenessDelays g s).sum = 0 ∨ (closenessDelays g s).length = 0
    · rw [if_pos hc]
      simp only [true_iff]
      rcases hc with hc | hc
      · exact Or.inr (hsum ▸ hc)
      · refine Or.inl ?_
        rw [← List.length_eq_zero, ← hlen]
        exact hc
    · rw [if_neg hc]
      push_neg at hc
      constructor
      · intro h
        exact absurd h (by simp)
      · intro hor
        rcases hor with hk | hk
        · rw [← List.length_eq_zero, ← hlen] at hk
          exact absurd hk hc.2
        · exact absurd (hsum.symm ▸ hk) hc.1
  · intro v hv
    rw [closeness_eq] at hv
    by_cases hc : (closenessDelays g s).sum = 0 ∨ (closenessDelays g s).length = 0
    · rw [if_pos hc] at hv
      exact absurd hv (by simp)
    · rw [if_neg hc] at hv
      rw [Option.some.injEq] at hv
      push_neg at hc
      subst hv
      exact div_ne_zero (by exact_mod_cast hc.2) hc.1

theorem claim_C8_witness : singleDestGraph.closeness_centrality "A" = none :=
  (claim_C8 singleDestGraph "A").1.mpr (Or.inl (by with_unfolding_all rfl))

/-- C9: for a station `a` present in the graph, `shortest_path(a, a)` returns
the single-element path `[a]` with total delay zero, found on the first pop of
the frontier. -/
theorem claim_C9 (g : TransitGraph) (a : Station) (_hmem : a ∈ g.all_stations) :
    g.shortest_path a a = some (0, [a]) :=
  shortest_path_self g a

theorem claim_C9_witness :
    ("A" : Station) ∈ exampleGraph.all_stations ∧
      exampleGraph.shortest_path "A" "A" = some (0, ["A"]) :=
  ⟨by with_unfolding_all decide, claim_C9 exampleGraph "A" (by with_unfolding_all decide)⟩

/-- C10: `shortest_path(a, a)` returns `Some((0.0, [a]))` for every string
`a`, including stations that occur nowhere in the graph: the start station is
seeded into the frontier and returned on the first pop before any membership
check. -/
theorem claim_C10 (g : TransitGraph) (a : Station) :
    g.shortest_path a a = some (0, [a]) :=
  shortest_path_self g a
